import Mathlib

/-!
# Concurrent recipe processing: the `cook` engine

A shallow embedding of `src/src/cook.c`.

* Recipes are addressed by their position in the cookbook's recipe list; a
  `RECIPE *` is a `Nat`, a possibly-NULL `RECIPE *` is an `Option Nat`.
* The `RECIPE_STATE` record hanging off each recipe (`rp->state`) is kept in a
  list parallel to the recipe list.
* The globals `work_queue_head/tail`, `active_cooks` and
  `main_recipe_name_global` are the fields of `Engine`.
* The recursion of `mark_required_recipes` is bounded by a fuel argument;
  `none` means "no result" (fuel exhausted, or a pointer that does not address
  a recipe of the cookbook).
* What the operating system decides (the value returned by `fork`, the pid and
  status returned by `waitpid`) is an input of the step that consumes it.
-/

namespace Cook

/-! ## Data model (`cookbook.h`, `cook.c` lines 14-37) -/

/-- The `RECIPE_STATE` record of `cook.c`; the four flags only ever hold 0 or 1. -/
structure RECIPE_STATE where
  required : Bool
  processing : Bool
  completed : Bool
  failed : Bool
  pid : Int
deriving DecidableEq, Repr

/-- Modelled from the spec: `RECIPE_LINK` of `cookbook.h` (not among the
sources): a dependency name with its resolved recipe, `none` for a NULL pointer. -/
structure RECIPE_LINK where
  name : String
  recipe : Option Nat
deriving DecidableEq, Repr

/-- Modelled from the spec: `STEP` of `cookbook.h`: the words of one command. -/
structure STEP where
  words : List String
deriving DecidableEq, Repr

/-- Modelled from the spec: `TASK` of `cookbook.h`: steps and optional redirections. -/
structure TASK where
  steps : List STEP
  input_file : Option String
  output_file : Option String
deriving DecidableEq, Repr

/-- Modelled from the spec: `RECIPE` of `cookbook.h`; `next` is the list order and
`state` is kept in `Engine.states`. -/
structure RECIPE where
  name : String
  this_depends_on : List RECIPE_LINK
  depend_on_this : List RECIPE_LINK
  tasks : List TASK
deriving DecidableEq, Repr

/-- Modelled from the spec: `COOKBOOK` of `cookbook.h`: the recipes in declaration order. -/
structure COOKBOOK where
  recipes : List RECIPE
deriving DecidableEq, Repr

/-- The state record produced by `calloc(1, sizeof(RECIPE_STATE))`. -/
def zero_state : RECIPE_STATE := ⟨false, false, false, false, 0⟩

def EXIT_SUCCESS : Int := 0

def EXIT_FAILURE : Int := 1

/-- The mutable globals of `cook.c`, followed by three history lists that the
program does not have: they record calls and are never read by the code. -/
structure Engine where
  /-- The record `rp->state` of every recipe, in cookbook order. -/
  states : List RECIPE_STATE
  /-- The linked list from `work_queue_head` to `work_queue_tail`, head first. -/
  work_queue : List Nat
  active_cooks : Int
  main_recipe_name_global : Option String
  /-- History: the argument of every call of `enqueue_recipe`, in call order. -/
  enqueued : List Nat
  /-- History: the recipes put back on the queue after a failed `fork`. -/
  requeued : List Nat
  /-- History: the recipes for which `fork` returned in the parent branch. -/
  dispatched : List Nat
deriving DecidableEq, Repr

/-- The globals at program start, after `init_work_queue()`. -/
def init_engine : Engine :=
  { states := [], work_queue := [], active_cooks := 0, main_recipe_name_global := none,
    enqueued := [], requeued := [], dispatched := [] }

/-! ## Work queue (`cook.c` lines 212-317) -/

def is_work_queue_empty (e : Engine) : Bool := e.work_queue.isEmpty

def enqueue_recipe (e : Engine) (recipe : Nat) : Engine :=
  { e with work_queue := e.work_queue ++ [recipe], enqueued := e.enqueued ++ [recipe] }

def dequeue_recipe (e : Engine) : Option Nat × Engine :=
  match e.work_queue with
  | [] => (none, e)
  | recipe :: rest => (some recipe, { e with work_queue := rest })

/-! ## Dependency analysis (`cook.c` lines 165-269) -/

/-- The loop of `find_recipe_by_name`, `i` being the position of the first recipe of the list. -/
def find_name_from : List RECIPE → String → Nat → Option Nat
  | [], _, _ => none
  | rp :: rest, name, i => if rp.name = name then some i else find_name_from rest name (i + 1)

def find_recipe_by_name (cbp : COOKBOOK) (name : String) : Option Nat :=
  find_name_from cbp.recipes name 0

/-- The `for` loop of `mark_required_recipes` over the links of one recipe;
`call` is the recursive call. -/
def mark_links (call : List RECIPE_STATE → Nat → Option (List RECIPE_STATE × Int)) :
    List RECIPE_STATE → List RECIPE_LINK → Option (List RECIPE_STATE × Int)
  | st, [] => some (st, 0)
  | st, link :: rest =>
    match link.recipe with
    | none => some (st, -1)
    | some sub_recipe =>
      match call st sub_recipe with
      | none => none
      | some (st1, rc) => if rc ≠ 0 then some (st1, -1) else mark_links call st1 rest

/-- The function `mark_required_recipes`: returns the states and the C return value. -/
def mark_required_recipes (cbp : COOKBOOK) :
    Nat → List RECIPE_STATE → Nat → Option (List RECIPE_STATE × Int)
  | 0, _, _ => none
  | fuel + 1, st, recipe =>
    match cbp.recipes[recipe]?, st[recipe]? with
    | some rp, some state =>
      if state.required then some (st, 0)
      else mark_links (mark_required_recipes cbp fuel)
        (st.set recipe { state with required := true }) rp.this_depends_on
    | _, _ => none

/-- The second loop of `perform_dependency_analysis`: enqueue the required
recipes that have no dependency link; `i` is the position of the first recipe
of the list. -/
def enqueue_leaves : List RECIPE → Nat → Engine → Engine
  | [], _, e => e
  | rp :: rest, i, e =>
    match e.states[i]? with
    | some state =>
      if state.required && rp.this_depends_on.isEmpty then
        enqueue_leaves rest (i + 1) (enqueue_recipe e i)
      else enqueue_leaves rest (i + 1) e
    | none => enqueue_leaves rest (i + 1) e

/-- The first loop of `perform_dependency_analysis`: a zeroed state record for every recipe. -/
def fresh_states (cbp : COOKBOOK) : List RECIPE_STATE :=
  cbp.recipes.map fun _ => zero_state

/-- The function `perform_dependency_analysis` (allocation is taken to succeed):
the globals afterwards and the C return value. -/
def perform_dependency_analysis (fuel : Nat) (cbp : COOKBOOK) (main_recipe_name : String)
    (e : Engine) : Option (Engine × Int) :=
  let e0 := { e with main_recipe_name_global := some main_recipe_name }
  match find_recipe_by_name cbp main_recipe_name with
  | none => some (e0, -1)
  | some main_recipe =>
    match mark_required_recipes cbp fuel (fresh_states cbp) main_recipe with
    | none => none
    | some (st1, rc) =>
      if rc ≠ 0 then some ({ e0 with states := st1 }, -1)
      else some (enqueue_leaves cbp.recipes 0 { e0 with states := st1 }, 0)

/-! ## Scheduler (`cook.c` lines 346-541) -/

/-- What `waitpid` reports about a terminated child. -/
inductive WAIT_STATUS where
  | exited (code : Nat)
  | signaled (sig : Nat)
deriving DecidableEq, Repr

/-- The dependency loop of `is_recipe_ready`; `none` is a NULL or dangling dereference. -/
def deps_completed (st : List RECIPE_STATE) : List RECIPE_LINK → Option Bool
  | [] => some true
  | link :: rest =>
    match link.recipe with
    | none => none
    | some dep_recipe =>
      match st[dep_recipe]? with
      | none => none
      | some dep_state => if !dep_state.completed then some false else deps_completed st rest

def is_recipe_ready (cbp : COOKBOOK) (st : List RECIPE_STATE) (recipe : Nat) : Option Bool :=
  match cbp.recipes[recipe]?, st[recipe]? with
  | some rp, some state =>
    if !state.required || state.processing || state.completed || state.failed then some false
    else deps_completed st rp.this_depends_on
  | _, _ => none

/-- The loop of `find_recipe_by_pid`, `i` being the position of the first state of the list. -/
def find_pid_from : List RECIPE_STATE → Int → Nat → Option Nat
  | [], _, _ => none
  | state :: rest, pid, i => if state.pid = pid then some i else find_pid_from rest pid (i + 1)

def find_recipe_by_pid (e : Engine) (pid : Int) : Option Nat :=
  find_pid_from e.states pid 0

/-- The loop of `sigchld_handler` over the `depend_on_this` links of the reaped recipe. -/
def enqueue_ready (cbp : COOKBOOK) : Engine → List RECIPE_LINK → Option Engine
  | e, [] => some e
  | e, link :: rest =>
    match link.recipe with
    | none => none
    | some dependent_recipe =>
      match is_recipe_ready cbp e.states dependent_recipe with
      | none => none
      | some true => enqueue_ready cbp (enqueue_recipe e dependent_recipe) rest
      | some false => enqueue_ready cbp e rest

/-- The flags after the classification of the exit status in `sigchld_handler`. -/
def classify (state : RECIPE_STATE) : WAIT_STATUS → RECIPE_STATE
  | .exited code => if code = 0 then { state with completed := true } else { state with failed := true }
  | .signaled _ => { state with failed := true }

/-- One iteration of the `while` loop of `sigchld_handler`, `waitpid` having
returned `pid` and `status`; `none` when `pid ≤ 0` (the loop is left) or on a
bad dereference. -/
def reap_step (cbp : COOKBOOK) (e : Engine) (pid : Int) (status : WAIT_STATUS) : Option Engine :=
  if pid ≤ 0 then none
  else
    match find_recipe_by_pid e pid with
    | none => some e
    | some recipe =>
      match cbp.recipes[recipe]?, e.states[recipe]? with
      | some rp, some state =>
        let state1 := classify state status
        let state2 := { state1 with processing := false, pid := 0 }
        enqueue_ready cbp
          { e with states := e.states.set recipe state2, active_cooks := e.active_cooks - 1 }
          rp.depend_on_this
      | _, _ => none

/-- The function `sigchld_handler`: reap the children that `waitpid` reports, in order. -/
def sigchld_handler (cbp : COOKBOOK) : Engine → List (Int × WAIT_STATUS) → Option Engine
  | e, [] => some e
  | e, (pid, status) :: rest =>
    if pid ≤ 0 then some e
    else
      match reap_step cbp e pid status with
      | none => none
      | some e1 => sigchld_handler cbp e1 rest

/-- One iteration of the loop of `process_recipes` that takes the dispatch
branch, `fork` having returned `fork_result` in the engine; `none` when the
branch is not taken, or when `fork_result = 0` (that is the cook process, not
the engine). -/
def dispatch_step (max_cooks : Int) (e : Engine) (fork_result : Int) : Option Engine :=
  if !is_work_queue_empty e && decide (e.active_cooks < max_cooks) then
    match dequeue_recipe e with
    | (none, e1) => some e1
    | (some recipe, e1) =>
      if fork_result = -1 then
        some { enqueue_recipe e1 recipe with requeued := e1.requeued ++ [recipe] }
      else if fork_result = 0 then none
      else
        match e1.states[recipe]? with
        | none => none
        | some state =>
          some { e1 with
            states := e1.states.set recipe { state with processing := true, pid := fork_result }
            active_cooks := e1.active_cooks + 1
            dispatched := e1.dispatched ++ [recipe] }
  else none

/-- What can happen to the engine between two checks of the completion rule. -/
inductive Event where
  | dispatch (fork_result : Int)
  | reap (pid : Int) (status : WAIT_STATUS)
deriving DecidableEq, Repr

def step (cbp : COOKBOOK) (max_cooks : Int) (e : Engine) : Event → Option Engine
  | .dispatch fork_result => dispatch_step max_cooks e fork_result
  | .reap pid status => reap_step cbp e pid status

/-- A run of the scheduler: the events in the order they happen. -/
def run (cbp : COOKBOOK) (max_cooks : Int) : Engine → List Event → Option Engine
  | e, [] => some e
  | e, ev :: rest =>
    match step cbp max_cooks e ev with
    | none => none
    | some e1 => run cbp max_cooks e1 rest

/-- The completion rule of `process_recipes` (line 378). -/
def processing_complete (e : Engine) : Bool :=
  is_work_queue_empty e && decide (e.active_cooks = 0)

/-- The exit status chosen after the loop of `process_recipes` (lines 449-455). -/
def final_verdict (cbp : COOKBOOK) (e : Engine) : Option Int :=
  match e.main_recipe_name_global with
  | none => none
  | some name =>
    match find_recipe_by_name cbp name with
    | none => none
    | some main_recipe =>
      match e.states[main_recipe]? with
      | none => none
      | some main_state => if main_state.failed then some EXIT_FAILURE else some EXIT_SUCCESS

/-- The function `process_recipes`: the exit status of the engine on a stream
of events; `none` when the events end before the completion rule holds. -/
def process_recipes (cbp : COOKBOOK) (max_cooks : Int) : Engine → List Event → Option Int
  | e, [] => if processing_complete e then final_verdict cbp e else none
  | e, ev :: rest =>
    if processing_complete e then final_verdict cbp e
    else
      match step cbp max_cooks e ev with
      | none => none
      | some e1 => process_recipes cbp max_cooks e1 rest

/-! ## Predicates of the statements -/

/-- The `required` flag of recipe `i` (false when there is no such recipe). -/
def is_required (st : List RECIPE_STATE) (i : Nat) : Bool :=
  match st[i]? with
  | some s => s.required
  | none => false

/-- Recipe `i` has a resolved `this_depends_on` link to recipe `j`. -/
def depends_on (cbp : COOKBOOK) (i j : Nat) : Prop :=
  ∃ rp, cbp.recipes[i]? = some rp ∧ ∃ l ∈ rp.this_depends_on, l.recipe = some j

/-- Recipe `j` is `i` or can be reached from `i` along resolved `this_depends_on` links. -/
def reachable (cbp : COOKBOOK) : Nat → Nat → Prop :=
  Relation.ReflTransGen (depends_on cbp)

/-- Recipe `m` is the first recipe of the cookbook whose name is `name`: the
recipe that the cookbook declares under that name. -/
def first_named (cbp : COOKBOOK) (name : String) (m : Nat) : Prop :=
  (∃ rp, cbp.recipes[m]? = some rp ∧ rp.name = name) ∧
    ∀ (i : Nat) (rp : RECIPE), i < m → cbp.recipes[i]? = some rp → rp.name ≠ name

/-- Recipe `v` has a `this_depends_on` link whose recipe pointer is NULL. -/
def has_unresolved_link (cbp : COOKBOOK) (v : Nat) : Prop :=
  ∃ rp, cbp.recipes[v]? = some rp ∧ ∃ l ∈ rp.this_depends_on, l.recipe = none

/-- A link pointer is NULL or addresses a recipe among the first `n`. -/
def link_in_book (n : Nat) (l : RECIPE_LINK) : Bool :=
  match l.recipe with
  | some j => decide (j < n)
  | none => true

/-- Modelled from the spec: the recipe pointers built by the parser (not among
the sources) address recipes of the cookbook. -/
def pointers_valid (cbp : COOKBOOK) : Bool :=
  cbp.recipes.all fun rp =>
    rp.this_depends_on.all (link_in_book cbp.recipes.length) &&
    rp.depend_on_this.all (link_in_book cbp.recipes.length)

/-- Every `this_depends_on` link of the cookbook has a resolved recipe. -/
def links_resolved (cbp : COOKBOOK) : Bool :=
  cbp.recipes.all fun rp => rp.this_depends_on.all fun l => l.recipe.isSome

/-- The states `st2` are the states `st` with some more `required` flags set. -/
structure marks_extend (st st2 : List RECIPE_STATE) : Prop where
  len : st2.length = st.length
  flags : ∀ (i : Nat) (s : RECIPE_STATE), st[i]? = some s →
    ∃ b, st2[i]? = some { s with required := b } ∧ (s.required = true → b = true)

/-- The recipes among the first `n` that are not marked required. -/
def unmarked (n : Nat) (st : List RECIPE_STATE) : Finset Nat :=
  (Finset.range n).filter fun i => is_required st i = false

/-- Every link of `v` is resolved and leads to a recipe marked required. -/
def closed_at (cbp : COOKBOOK) (st : List RECIPE_STATE) (v : Nat) : Prop :=
  ∀ rp, cbp.recipes[v]? = some rp →
    ∀ l ∈ rp.this_depends_on, ∃ j, l.recipe = some j ∧ is_required st j = true

/-- What one call `mark_required_recipes(r)` achieves, from states `st` to `st2`. -/
structure MarkSpec (cbp : COOKBOOK) (st : List RECIPE_STATE) (r : Nat)
    (st2 : List RECIPE_STATE) (rc : Int) : Prop where
  ext : marks_extend st st2
  sound : ∀ v, is_required st2 v = true → is_required st v = false → reachable cbp r v
  ok : rc = 0 → is_required st2 r = true ∧
    ∀ v, is_required st2 v = true → is_required st v = false → closed_at cbp st2 v
  code : rc = 0 ∨ rc = -1
  err : rc = -1 → ∃ v, reachable cbp r v ∧ has_unresolved_link cbp v

/-- What the link loop of `mark_required_recipes` achieves, from states `st` to `st2`. -/
structure LinksSpec (cbp : COOKBOOK) (st : List RECIPE_STATE) (links : List RECIPE_LINK)
    (st2 : List RECIPE_STATE) (rc : Int) : Prop where
  ext : marks_extend st st2
  sound : ∀ v, is_required st2 v = true → is_required st v = false →
    ∃ l ∈ links, ∃ j, l.recipe = some j ∧ reachable cbp j v
  ok : rc = 0 → (∀ l ∈ links, ∃ j, l.recipe = some j ∧ is_required st2 j = true) ∧
    ∀ v, is_required st2 v = true → is_required st v = false → closed_at cbp st2 v
  code : rc = 0 ∨ rc = -1
  err : rc = -1 → (∃ l ∈ links, l.recipe = none) ∨
    ∃ l ∈ links, ∃ j, l.recipe = some j ∧ ∃ v, reachable cbp j v ∧ has_unresolved_link cbp v

/-- The recipe at position `i` has an empty `this_depends_on` list. -/
def is_leaf (cbp : COOKBOOK) (i : Nat) : Bool :=
  match cbp.recipes[i]? with
  | some rp => rp.this_depends_on.isEmpty
  | none => false

/-! ## Example cookbooks -/

/-- Scenario S4 of the specification: `main` depends on `dep`. -/
def book_main_dep : COOKBOOK :=
  ⟨[⟨"main", [⟨"dep", some 1⟩], [], [⟨[⟨["echo", "main"]⟩], none, none⟩]⟩,
    ⟨"dep", [], [⟨"main", some 0⟩], [⟨[⟨["false"]⟩], none, none⟩]⟩]⟩

/-- A cookbook in which `main` needs nothing and `other` names a recipe that does not exist. -/
def book_stray_link : COOKBOOK :=
  ⟨[⟨"main", [], [], []⟩, ⟨"other", [⟨"ghost", none⟩], [], []⟩]⟩

/-- A cookbook in which `main` is not the first recipe and needs `dep`; `mash`
stands before it and needs nothing. -/
def book_named : COOKBOOK :=
  ⟨[⟨"mash", [], [], []⟩, ⟨"main", [⟨"dep", some 2⟩], [], []⟩,
    ⟨"dep", [], [⟨"main", some 1⟩], []⟩]⟩

/-- A cookbook in which `main` names a recipe that does not exist. -/
def book_missing_dep : COOKBOOK :=
  ⟨[⟨"main", [⟨"ghost", none⟩], [], []⟩]⟩

/-! ## Predicates of the scheduler statements -/

/-- Modelled from the spec: the `depend_on_this` links built by the parser (not
among the sources) are the back-edges of the `this_depends_on` links: each is
resolved, each leads to a recipe that has a `this_depends_on` link back, and no
recipe has two back-edges to the same dependent (the dependencies of a recipe
are a set). -/
def back_links_ok (cbp : COOKBOOK) : Bool :=
  (List.range cbp.recipes.length).all fun d =>
    match cbp.recipes[d]? with
    | none => true
    | some rp =>
      (rp.depend_on_this.all fun l =>
        match l.recipe with
        | none => false
        | some j =>
          match cbp.recipes[j]? with
          | none => false
          | some rj => rj.this_depends_on.any fun k => k.recipe == some d) &&
      decide (rp.depend_on_this.map fun l => l.recipe).Nodup

/-- Condition I4 of the specification, in its words: the recipe is required,
not processing, not completed, not failed, and each of its dependencies is
completed. -/
def satisfies_I4 (cbp : COOKBOOK) (st : List RECIPE_STATE) (r : Nat) : Prop :=
  ∃ rp s, cbp.recipes[r]? = some rp ∧ st[r]? = some s ∧
    s.required = true ∧ s.processing = false ∧ s.completed = false ∧ s.failed = false ∧
    ∀ l ∈ rp.this_depends_on, ∃ d ds, l.recipe = some d ∧ st[d]? = some ds ∧ ds.completed = true

/-- The recipe has been given a cook at some time: it is processing, completed or failed. -/
def is_taken (st : List RECIPE_STATE) (r : Nat) : Bool :=
  match st[r]? with
  | some s => s.processing || s.completed || s.failed
  | none => false

/-- The recipe is on the queue or has been given a cook. -/
def is_started (e : Engine) (r : Nat) : Bool :=
  decide (r ∈ e.work_queue) || is_taken e.states r

/-- The number of recipes whose `processing` flag is set. -/
def processing_count (st : List RECIPE_STATE) : Nat :=
  st.countP fun s => s.processing

/-- The scheduler invariant. -/
structure Inv (cbp : COOKBOOK) (max_cooks : Int) (e : Engine) : Prop where
  len : e.states.length = cbp.recipes.length
  req_closed : ∀ i, is_required e.states i = true → closed_at cbp e.states i
  flags : ∀ (i : Nat) (s : RECIPE_STATE), e.states[i]? = some s →
    (s.pid ≠ 0 → s.processing = true) ∧
    (s.processing = true → s.completed = false ∧ s.failed = false)
  queue_ready : ∀ r ∈ e.work_queue, satisfies_I4 cbp e.states r
  queue_nodup : e.work_queue.Nodup
  count : (processing_count e.states : Int) = e.active_cooks
  cap : e.active_cooks ≤ max_cooks
  disp_taken : ∀ r ∈ e.dispatched, is_taken e.states r = true
  disp_nodup : e.dispatched.Nodup
  enq_count : ∀ r, e.enqueued.count r = e.requeued.count r + (if is_started e r then 1 else 0)

/-- What one reap step does to the queue and the history lists. -/
structure ReapEffect (cbp : COOKBOOK) (e e2 : Engine) : Prop where
  len : e2.states.length = e.states.length
  main_name : e2.main_recipe_name_global = e.main_recipe_name_global
  requeued : e2.requeued = e.requeued
  dispatched : e2.dispatched = e.dispatched
  added : ∃ new, e2.work_queue = e.work_queue ++ new ∧ e2.enqueued = e.enqueued ++ new ∧
    ∀ d ∈ new, satisfies_I4 cbp e2.states d ∧ d ∉ e.work_queue

/-- The engine states that a run of the program can reach: dependency analysis
succeeds on the initial globals, then dispatch and reap steps follow in any order. -/
def reachable_engine (cbp : COOKBOOK) (max_cooks : Int) (e : Engine) : Prop :=
  ∃ fuel name e1 evs, perform_dependency_analysis fuel cbp name init_engine = some (e1, 0) ∧
    run cbp max_cooks e1 evs = some e

/-! ## Example engine states (cookbook `book_main_dep`, cap 1) -/

/-- After dependency analysis: both recipes required, `dep` on the queue. -/
def s4_analysed : Engine :=
  { states := [⟨true, false, false, false, 0⟩, ⟨true, false, false, false, 0⟩],
    work_queue := [1], active_cooks := 0, main_recipe_name_global := some "main",
    enqueued := [1], requeued := [], dispatched := [] }

/-- After `dep` was given the cook with pid 100. -/
def s4_dep_running : Engine :=
  { states := [⟨true, false, false, false, 0⟩, ⟨true, true, false, false, 100⟩],
    work_queue := [], active_cooks := 1, main_recipe_name_global := some "main",
    enqueued := [1], requeued := [], dispatched := [1] }

/-- After the cook of `dep` exited with status 0: `main` is on the queue. -/
def s4_dep_done : Engine :=
  { states := [⟨true, false, false, false, 0⟩, ⟨true, false, true, false, 0⟩],
    work_queue := [0], active_cooks := 0, main_recipe_name_global := some "main",
    enqueued := [1, 0], requeued := [], dispatched := [1] }

/-- After the cook of `dep` exited with status 1: `main` was never dispatched. -/
def s4_dep_failed : Engine :=
  { states := [⟨true, false, false, false, 0⟩, ⟨true, false, false, true, 0⟩],
    work_queue := [], active_cooks := 0, main_recipe_name_global := some "main",
    enqueued := [1], requeued := [], dispatched := [1] }

/-- After the first `fork` failed: `dep` is back on the queue. -/
def s4_requeued : Engine :=
  { states := [⟨true, false, false, false, 0⟩, ⟨true, false, false, false, 0⟩],
    work_queue := [1], active_cooks := 0, main_recipe_name_global := some "main",
    enqueued := [1, 1], requeued := [1], dispatched := [] }

/-- After a failed `fork`, a second `fork` and the cook of `dep` exiting with status 0. -/
def s4_requeued_dep_done : Engine :=
  { states := [⟨true, false, false, false, 0⟩, ⟨true, false, true, false, 0⟩],
    work_queue := [0], active_cooks := 0, main_recipe_name_global := some "main",
    enqueued := [1, 1, 0], requeued := [1], dispatched := [1] }

/-! ## Example cookbooks in which a dependency is named twice -/

/-- After the cook of `dep` (pid 100) exited with status 0: the handler walked
both links to `main` and enqueued it at each. -/
def dup_dep_done : Engine :=
  { states := [⟨true, false, false, false, 0⟩, ⟨true, false, true, false, 0⟩],
    work_queue := [0, 0], active_cooks := 0, main_recipe_name_global := some "main",
    enqueued := [1, 0, 0], requeued := [], dispatched := [1] }

/-- What `waitpid(child_pids[i], &status, 0)` returns: -1, or the status of the stage. -/
inductive WAIT_RESULT where
  | error
  | status (s : WAIT_STATUS)
deriving DecidableEq, Repr

/-- What the operating system answers during one call of `execute_task`. -/
structure TASK_ENV where
  /-- The `malloc` of `child_pids` succeeds. -/
  malloc_ok : Bool
  /-- Every `malloc` and `pipe` call of the pipe loop succeeds. -/
  pipes_ok : Bool
  /-- The `open` of the input file succeeds. -/
  open_input_ok : Bool
  /-- The `open` of the output file succeeds. -/
  open_output_ok : Bool
  /-- The value returned by `fork` for stage `i`. -/
  fork : Nat → Int
  /-- The result of `waitpid` for stage `i`. -/
  wait : Nat → WAIT_RESULT

/-- The `fork` loop of `execute_task` from stage `i` on, `k` stages remaining:
the final `task_failed`; `none` when `fork` returns 0, which is the stage
process (it replaces itself with the command or exits, and never returns from
`execute_task`). -/
def spawn_loop (fork : Nat → Int) : Nat → Nat → Option Bool
  | 0, _ => some false
  | k + 1, i =>
    if fork i = -1 then some true
    else if fork i = 0 then none
    else spawn_loop fork k (i + 1)

/-- The body of the `waitpid` loop of `execute_task` on `(task_failed, task_exit_status)`. -/
def wait_one (acc : Bool × Int) : WAIT_RESULT → Bool × Int
  | .error => (true, acc.2)
  | .status (.exited code) => if (code : Int) ≠ 0 then (true, (code : Int)) else acc
  | .status (.signaled _) => (true, acc.2)

/-- The `waitpid` loop of `execute_task` over the stages `0 .. num_steps - 1`. -/
def wait_loop (wait : Nat → WAIT_RESULT) (num_steps : Nat) : Bool × Int :=
  (List.range num_steps).foldl (fun acc i => wait_one acc (wait i)) (false, 0)

/-- The function `execute_task`: the value returned to the cook process. -/
def execute_task (env : TASK_ENV) (task : TASK) : Option Int :=
  let num_steps := task.steps.length
  if num_steps = 0 then some 0
  else if !env.malloc_ok then some (-1)
  else if decide (num_steps > 1) && !env.pipes_ok then some (-1)
  else if task.input_file.isSome && !env.open_input_ok then some (-1)
  else if task.output_file.isSome && !env.open_output_ok then some (-1)
  else
    match spawn_loop env.fork num_steps 0 with
    | none => none
    | some true => some (-1)
    | some false =>
      let r := wait_loop env.wait num_steps
      if r.1 then some (if r.2 ≠ 0 then r.2 else -1) else some 0

/-- The loop of `process_recipe` from the task at position `i` on; the list
records the positions of the tasks on which `execute_task` was called. -/
def process_recipe_loop (envs : Nat → TASK_ENV) :
    List TASK → Nat → RECIPE_STATE → List Nat → Option (RECIPE_STATE × List Nat)
  | [], _, state, log => some ({ state with failed := false, completed := true }, log)
  | task :: rest, i, state, log =>
    match execute_task (envs i) task with
    | none => none
    | some rc =>
      if rc ≠ 0 then some ({ state with failed := true }, log ++ [i])
      else process_recipe_loop envs rest (i + 1) state (log ++ [i])

/-- The function `process_recipe` on the tasks of a recipe and its state record. -/
def process_recipe (envs : Nat → TASK_ENV) (tasks : List TASK) (state : RECIPE_STATE) :
    Option (RECIPE_STATE × List Nat) :=
  process_recipe_loop envs tasks 0 state []

/-- The exit status of the cook process (`process_recipes` lines 419-423). -/
def cook_exit_status (envs : Nat → TASK_ENV) (tasks : List TASK) (state : RECIPE_STATE) :
    Option Int :=
  match process_recipe envs tasks state with
  | none => none
  | some (state2, _) => if state2.failed then some EXIT_FAILURE else some EXIT_SUCCESS

/-! ## Predicates of the pipeline statements -/

/-- Every resource of the task was obtained and every stage was forked. -/
def all_spawned (env : TASK_ENV) (task : TASK) : Prop :=
  env.malloc_ok = true ∧ (1 < task.steps.length → env.pipes_ok = true) ∧
  (task.input_file.isSome = true → env.open_input_ok = true) ∧
  (task.output_file.isSome = true → env.open_output_ok = true) ∧
  ∀ i, i < task.steps.length → env.fork i ≠ -1 ∧ env.fork i ≠ 0

/-- The exit status of a stage that exited normally with a non-zero status. -/
def nonzero_exit : WAIT_RESULT → Option Nat
  | .status (.exited code) => if code ≠ 0 then some code else none
  | _ => none

/-- The specification's "last non-zero exit status": that of the stage of
highest index, among the first `n`, that exited with a non-zero status. -/
def last_nonzero_exit (wait : Nat → WAIT_RESULT) (n : Nat) : Option Nat :=
  ((List.range n).reverse.filterMap fun i => nonzero_exit (wait i)).head?

/-- The value of `execute_task` on the task at position `i`. -/
def task_result (envs : Nat → TASK_ENV) (tasks : List TASK) (i : Nat) : Option Int :=
  match tasks[i]? with
  | some task => execute_task (envs i) task
  | none => none

/-- A pipeline `cat | wc -l` with an input file. -/
def task_cat_wc : TASK :=
  ⟨[⟨["cat"]⟩, ⟨["wc", "-l"]⟩], some "in.txt", none⟩

/-- An environment in which everything succeeds and stage `i` gets pid `200 + i`. -/
def env_all_ok : TASK_ENV :=
  { malloc_ok := true, pipes_ok := true, open_input_ok := true, open_output_ok := true,
    fork := fun i => 200 + i, wait := fun _ => .status (.exited 0) }

/-- As `env_all_ok`, but stage 0 exits with status 3 and stage 1 is killed by signal 9. -/
def env_first_fails : TASK_ENV :=
  { malloc_ok := true, pipes_ok := true, open_input_ok := true, open_output_ok := true,
    fork := fun i => 200 + i,
    wait := fun i => if i = 0 then .status (.exited 3) else .status (.signaled 9) }

/-! ## Predicates of the reap-step statements -/

/-- The dependents that the loop of `sigchld_handler` over `links` enqueues when
the states are `st`: the recipes of the links, in link order, for which
`is_recipe_ready` returns 1. -/
def ready_dependents (cbp : COOKBOOK) (st : List RECIPE_STATE) (links : List RECIPE_LINK) :
    List Nat :=
  (links.filterMap fun l => l.recipe).filter fun d => is_recipe_ready cbp st d == some true

/-- The state record of a reaped recipe, in the words of the specification:
`completed` is set on a normal exit with code 0, `failed` on any other exit or a
signal, `processing` and the pid are cleared. -/
def reaped_state (s : RECIPE_STATE) (status : WAIT_STATUS) : RECIPE_STATE :=
  { required := s.required, processing := false,
    completed := s.completed || decide (status = .exited 0),
    failed := s.failed || !decide (status = .exited 0), pid := 0 }

/-- Recipe `r` is the first recipe of the cookbook whose state record holds `pid`. -/
def first_with_pid (st : List RECIPE_STATE) (pid : Int) (r : Nat) : Prop :=
  (∃ s, st[r]? = some s ∧ s.pid = pid) ∧
    ∀ (i : Nat) (s : RECIPE_STATE), i < r → st[i]? = some s → s.pid ≠ pid

/-- No state record holds `pid`. -/
def no_recipe_with_pid (st : List RECIPE_STATE) (pid : Int) : Prop :=
  ∀ (i : Nat) (s : RECIPE_STATE), st[i]? = some s → s.pid ≠ pid

/-! ## Predicates of the failure-propagation statements -/

/-- The link loop of `mark_required_recipes`, carrying the list of the recipes
expanded so far (a history list that the program does not have). -/
def mark_links_traced
    (call : List RECIPE_STATE → List Nat → Nat → Option (List RECIPE_STATE × List Nat × Int)) :
    List RECIPE_STATE → List Nat → List RECIPE_LINK →
      Option (List RECIPE_STATE × List Nat × Int)
  | st, log, [] => some (st, log, 0)
  | st, log, link :: rest =>
    match link.recipe with
    | none => some (st, log, -1)
    | some sub_recipe =>
      match call st log sub_recipe with
      | none => none
      | some (st1, log1, rc) =>
        if rc ≠ 0 then some (st1, log1, -1) else mark_links_traced call st1 log1 rest

/-- The function `mark_required_recipes`, recording each recipe that passes the
`required` test and is expanded (marked, its links followed). -/
def mark_required_recipes_traced (cbp : COOKBOOK) :
    Nat → List RECIPE_STATE → List Nat → Nat → Option (List RECIPE_STATE × List Nat × Int)
  | 0, _, _, _ => none
  | fuel + 1, st, log, recipe =>
    match cbp.recipes[recipe]?, st[recipe]? with
    | some rp, some state =>
      if state.required then some (st, log, 0)
      else mark_links_traced (mark_required_recipes_traced cbp fuel)
        (st.set recipe { state with required := true }) (log ++ [recipe]) rp.this_depends_on
    | _, _ => none

/-- A cookbook with a dependency cycle: `a` needs `b`, `b` needs `a` and itself. -/
def book_cycle : COOKBOOK :=
  ⟨[⟨"a", [⟨"b", some 1⟩], [⟨"b", some 1⟩], []⟩,
    ⟨"b", [⟨"a", some 0⟩, ⟨"b", some 1⟩], [⟨"a", some 0⟩, ⟨"b", some 1⟩], []⟩]⟩

/-- What a traced marking call achieves, from states `st` and record `log` to
`st2` and `log2`. -/
structure TraceSpec (st : List RECIPE_STATE) (log : List Nat) (st2 : List RECIPE_STATE)
    (log2 : List Nat) : Prop where
  marked : ∀ v ∈ log2, is_required st2 v = true
  nodup : log2.Nodup
  mono : ∀ v, is_required st v = true → is_required st2 v = true
  sub : ∀ v ∈ log, v ∈ log2
  complete : ∀ v, is_required st2 v = true → is_required st v = true ∨ v ∈ log2

/-! ## The work queue as a linked list (`cook.c` lines 24-32, 212-215, 272-317)

The scheduler model above keeps the queue as a list. Here the queue is the
linked list of the program: nodes on a heap, addressed by their position, and
the two globals `work_queue_head` and `work_queue_tail`. `malloc` is taken to
succeed and to return the next unused address. -/

/-- The `WORK_QUEUE_NODE` of `cook.c`; `next` is an address, `none` for NULL. -/
structure WORK_QUEUE_NODE where
  recipe : Nat
  next : Option Nat
deriving DecidableEq, Repr

/-- The nodes on the heap (`none` for a freed node) and the two queue globals. -/
structure WORK_QUEUE where
  heap : List (Option WORK_QUEUE_NODE)
  work_queue_head : Option Nat
  work_queue_tail : Option Nat
deriving DecidableEq, Repr

def Linked.init_work_queue (q : WORK_QUEUE) : WORK_QUEUE :=
  { q with work_queue_head := none, work_queue_tail := none }

def Linked.is_work_queue_empty (q : WORK_QUEUE) : Bool :=
  q.work_queue_head.isNone

/-- The function `enqueue_recipe` on the linked list; `none` is a write through
a pointer that addresses no live node. -/
def Linked.enqueue_recipe (q : WORK_QUEUE) (recipe : Nat) : Option WORK_QUEUE :=
  let node := q.heap.length
  let heap1 := q.heap ++ [some ⟨recipe, none⟩]
  match q.work_queue_tail with
  | none => some { heap := heap1, work_queue_head := some node, work_queue_tail := some node }
  | some tail =>
    match heap1[tail]? with
    | some (some t) =>
      some { heap := heap1.set tail (some { t with next := some node }),
             work_queue_head := q.work_queue_head, work_queue_tail := some node }
    | _ => none

/-- The function `dequeue_recipe` on the linked list: the recipe returned
(`none` for NULL) and the queue afterwards; the outer `none` is a read through
a pointer that addresses no live node. -/
def Linked.dequeue_recipe (q : WORK_QUEUE) : Option (Option Nat × WORK_QUEUE) :=
  match q.work_queue_head with
  | none => some (none, q)
  | some node =>
    match q.heap[node]? with
    | some (some n) =>
      some (some n.recipe,
        { heap := q.heap.set node none, work_queue_head := n.next,
          work_queue_tail := if n.next = none then none else q.work_queue_tail })
    | _ => none

/-- A call of one of the two queue functions. -/
inductive QUEUE_OP where
  | enqueue (recipe : Nat)
  | dequeue
deriving DecidableEq, Repr

/-- A sequence of queue calls on the linked list: the queue afterwards and what
the `dequeue_recipe` calls returned, in call order. -/
def Linked.run_ops : WORK_QUEUE → List QUEUE_OP → Option (WORK_QUEUE × List (Option Nat))
  | q, [] => some (q, [])
  | q, .enqueue recipe :: ops =>
    match Linked.enqueue_recipe q recipe with
    | none => none
    | some q1 => Linked.run_ops q1 ops
  | q, .dequeue :: ops =>
    match Linked.dequeue_recipe q with
    | none => none
    | some (res, q1) =>
      match Linked.run_ops q1 ops with
      | none => none
      | some (q2, out) => some (q2, res :: out)

/-- The specification's first-in-first-out container, on a list: the contents
afterwards and what the dequeues returned. -/
def fifo_ops : List Nat → List QUEUE_OP → List Nat × List (Option Nat)
  | l, [] => (l, [])
  | l, .enqueue recipe :: ops => fifo_ops (l ++ [recipe]) ops
  | [], .dequeue :: ops => ((fifo_ops [] ops).1, none :: (fifo_ops [] ops).2)
  | x :: l, .dequeue :: ops => ((fifo_ops l ops).1, some x :: (fifo_ops l ops).2)

/-- The recipes passed to `enqueue_recipe` by a sequence of calls, in call order. -/
def enqueued_recipes (ops : List QUEUE_OP) : List Nat :=
  ops.filterMap fun op =>
    match op with
    | .enqueue recipe => some recipe
    | .dequeue => none

/-- The recipes returned by the `dequeue_recipe` calls, NULL results left out. -/
def dequeued_recipes (out : List (Option Nat)) : List Nat :=
  out.filterMap id

/-- The nodes at the addresses `as`, each pointing to the next, hold the recipes `l`. -/
def Linked.chain (heap : List (Option WORK_QUEUE_NODE)) : List Nat → List Nat → Prop
  | [], [] => True
  | a :: as, r :: rs => heap[a]? = some (some ⟨r, as.head?⟩) ∧ Linked.chain heap as rs
  | _, _ => False

/-- The linked list of `q` consists of the nodes at the addresses `as` and holds
the recipes `l`, head first. -/
structure Linked.Represents (q : WORK_QUEUE) (as : List Nat) (l : List Nat) : Prop where
  chain : Linked.chain q.heap as l
  nodup : as.Nodup
  head : q.work_queue_head = as.head?
  tail : q.work_queue_tail = as.getLast?

/-! ## Command line (`cook.c` lines 70-148) -/

/-- The three values that `parse_command_line` stores through its pointer arguments. -/
structure CLI_OPTIONS where
  cookbook_filename : String
  max_cooks : Int
  main_recipe_name : Option String
deriving DecidableEq, Repr

/-- The white-space characters that `atoi` skips (`isspace` in the C locale). -/
def atoi_space (c : Char) : Bool :=
  c.toNat = 32 || (9 ≤ c.toNat && c.toNat ≤ 13)

/-- The value of the leading decimal digits of a character list. -/
def atoi_digits : List Char → Nat → Nat
  | [], acc => acc
  | c :: cs, acc =>
    if 48 ≤ c.toNat && c.toNat ≤ 57 then atoi_digits cs (acc * 10 + (c.toNat - 48)) else acc

/-- The number that a string denotes for `strtol(s, NULL, 10)`,
before any range check: leading white space is skipped, an optional sign is
read, then the decimal digits up to the first other character; no digit gives 0. -/
def strtol_number (s : String) : Int :=
  match s.data.dropWhile atoi_space with
  | [] => 0
  | c :: cs =>
    if c = '-' then -(atoi_digits cs 0 : Int)
    else if c = '+' then (atoi_digits cs 0 : Int)
    else (atoi_digits (c :: cs) 0 : Int)

/-- The largest value of a 64-bit `long`. -/
def LONG_MAX : Int := 9223372036854775807

/-- The value returned by `strtol`: the number read, held to the range of a
64-bit `long`. -/
def strtol (s : String) : Int :=
  if strtol_number s > LONG_MAX then LONG_MAX
  else if strtol_number s < -LONG_MAX - 1 then -LONG_MAX - 1
  else strtol_number s

/-- The conversion of a `long` to a 32-bit `int`: the low 32 bits, read in
two's complement. -/
def int_of_long (v : Int) : Int :=
  (v + 2147483648) % 4294967296 - 2147483648

/-- The `atoi` of the C library, which is `(int) strtol(s, NULL, 10)`, with a
64-bit `long` and the 32-bit `int` in which `parse_command_line` stores the
result (`*max_cooks`). -/
def atoi (s : String) : Int :=
  int_of_long (strtol s)

/-- The `while` loop of `parse_command_line` on the words not yet read; `none`
is `exit(EXIT_FAILURE)`. -/
def parse_loop : List String → CLI_OPTIONS → Option CLI_OPTIONS
  | [], o => some o
  | arg :: rest, o =>
    if arg.data.head? = some '-' then
      if arg = "-f" then
        match rest with
        | filename :: rest2 => parse_loop rest2 { o with cookbook_filename := filename }
        | [] => none
      else if arg = "-c" then
        match rest with
        | number :: rest2 =>
          if atoi number ≤ 0 then none
          else parse_loop rest2 { o with max_cooks := atoi number }
        | [] => none
      else none
    else
      match o.main_recipe_name with
      | none => parse_loop rest { o with main_recipe_name := some arg }
      | some _ => none

/-- The function `parse_command_line` on the words `argv[1] .. argv[argc - 1]`. -/
def parse_command_line (args : List String) : Option CLI_OPTIONS :=
  parse_loop args { cookbook_filename := "cookbook.ckb", max_cooks := 1, main_recipe_name := none }

/-! ## The command line as the specification describes it -/

/-- What a word, or an option with the word that follows it, stands for. -/
inductive CLI_ITEM where
  | file (path : String)
  | cooks (number : String)
  | name (word : String)
  | bad
deriving DecidableEq, Repr

def cli_files (items : List CLI_ITEM) : List String :=
  items.filterMap fun it =>
    match it with
    | .file path => some path
    | _ => none

theorem marks_extend_refl (st : List RECIPE_STATE) : marks_extend st st :=
  ⟨rfl, fun _ s h => ⟨s.required, h, id⟩⟩

theorem marks_extend_trans {a b c : List RECIPE_STATE} (h1 : marks_extend a b)
    (h2 : marks_extend b c) : marks_extend a c := by
  refine ⟨h2.len.trans h1.len, fun i s hs => ?_⟩
  obtain ⟨b1, hb1, hm1⟩ := h1.flags i s hs
  obtain ⟨b2, hb2, hm2⟩ := h2.flags i _ hb1
  exact ⟨b2, hb2, fun h => hm2 (hm1 h)⟩

theorem marks_extend_set {st : List RECIPE_STATE} {r : Nat} {s : RECIPE_STATE}
    (hs : st[r]? = some s) : marks_extend st (st.set r { s with required := true }) := by
  refine ⟨List.length_set _ _ _, fun i t ht => ?_⟩
  by_cases hir : r = i
  · subst hir
    have hlt : r < st.length := by
      rcases List.getElem?_eq_some_iff.1 hs with ⟨h, _⟩
      exact h
    rw [hs] at ht
    cases ht
    exact ⟨true, List.getElem?_set_self hlt, fun _ => rfl⟩
  · refine ⟨t.required, ?_, id⟩
    rw [List.getElem?_set_ne hir]
    exact ht

theorem is_required_mono {st st2 : List RECIPE_STATE} (h : marks_extend st st2) {i : Nat}
    (hi : is_required st i = true) : is_required st2 i = true := by
  unfold is_required at hi ⊢
  cases hs : st[i]? with
  | none => simp [hs] at hi
  | some s =>
    simp only [hs] at hi
    obtain ⟨b, hb, hm⟩ := h.flags i s hs
    simp only [hb]
    exact hm hi

theorem unmarked_mono (n : Nat) {st st2 : List RECIPE_STATE} (h : marks_extend st st2) :
    unmarked n st2 ⊆ unmarked n st := by
  intro i hi
  simp only [unmarked, Finset.mem_filter] at hi ⊢
  refine ⟨hi.1, ?_⟩
  cases hr : is_required st i with
  | false => rfl
  | true => rw [is_required_mono h hr] at hi; exact absurd hi.2 (by simp)

theorem unmarked_card_mono (n : Nat) {st st2 : List RECIPE_STATE} (h : marks_extend st st2) :
    (unmarked n st2).card ≤ (unmarked n st).card :=
  Finset.card_le_card (unmarked_mono n h)

theorem is_required_set_self {st : List RECIPE_STATE} {r : Nat} {s : RECIPE_STATE}
    (hs : st[r]? = some s) : is_required (st.set r { s with required := true }) r = true := by
  have hlt : r < st.length := by
    rcases List.getElem?_eq_some_iff.1 hs with ⟨h, _⟩
    exact h
  simp [is_required, List.getElem?_set_self hlt]

theorem is_required_set_ne {st : List RECIPE_STATE} {r v : Nat} (s : RECIPE_STATE)
    (h : r ≠ v) : is_required (st.set r s) v = is_required st v := by
  simp [is_required, List.getElem?_set_ne h]

theorem unmarked_card_set {n : Nat} {st : List RECIPE_STATE} {r : Nat} {s : RECIPE_STATE}
    (hs : st[r]? = some s) (hr : s.required = false) (hn : r < n) :
    (unmarked n (st.set r { s with required := true })).card < (unmarked n st).card := by
  apply Finset.card_lt_card
  refine Finset.ssubset_iff_subset_ne.2 ⟨unmarked_mono n (marks_extend_set hs), fun heq => ?_⟩
  have hmem : r ∈ unmarked n st := by
    simp [unmarked, is_required, hs, hr, hn]
  rw [← heq] at hmem
  simp [unmarked, is_required_set_self hs] at hmem

theorem link_in_book_lt {n : Nat} {l : RECIPE_LINK} {j : Nat} (h : link_in_book n l = true)
    (hj : l.recipe = some j) : j < n := by
  simpa [link_in_book, hj] using h

theorem pointers_valid_deps {cbp : COOKBOOK} (hv : pointers_valid cbp = true) {i : Nat}
    {rp : RECIPE} (hrp : cbp.recipes[i]? = some rp) {l : RECIPE_LINK}
    (hl : l ∈ rp.this_depends_on) {j : Nat} (hj : l.recipe = some j) :
    j < cbp.recipes.length := by
  have hmem : rp ∈ cbp.recipes := List.getElem?_mem hrp
  simp only [pointers_valid, List.all_eq_true, Bool.and_eq_true] at hv
  exact link_in_book_lt ((hv rp hmem).1 l hl) hj

theorem closed_at_mono {cbp : COOKBOOK} {st st2 : List RECIPE_STATE} (h : marks_extend st st2)
    {v : Nat} (hc : closed_at cbp st v) : closed_at cbp st2 v := by
  intro rp hrp l hl
  obtain ⟨j, hj, hreq⟩ := hc rp hrp l hl
  exact ⟨j, hj, is_required_mono h hreq⟩

theorem mark_links_spec (cbp : COOKBOOK) (fuel : Nat)
    (call : List RECIPE_STATE → Nat → Option (List RECIPE_STATE × Int))
    (hcall : ∀ st r, st.length = cbp.recipes.length → r < cbp.recipes.length →
      (unmarked cbp.recipes.length st).card < fuel →
      ∃ st2 rc, call st r = some (st2, rc) ∧ MarkSpec cbp st r st2 rc) :
    ∀ (links : List RECIPE_LINK) (st : List RECIPE_STATE),
      (∀ l ∈ links, ∀ j, l.recipe = some j → j < cbp.recipes.length) →
      st.length = cbp.recipes.length →
      (unmarked cbp.recipes.length st).card < fuel →
      ∃ st2 rc, mark_links call st links = some (st2, rc) ∧ LinksSpec cbp st links st2 rc := by
  intro links
  induction links with
  | nil =>
    intro st _ _ _
    refine ⟨st, 0, rfl, ⟨marks_extend_refl st, ?_, ?_, Or.inl rfl, ?_⟩⟩
    · intro v h1 h2; rw [h1] at h2; cases h2
    · intro _
      refine ⟨fun l hl => absurd hl (List.not_mem_nil l), ?_⟩
      intro v h1 h2; rw [h1] at h2; cases h2
    · intro h; cases h
  | cons link rest ih =>
    intro st hlinks hlen hfuel
    cases hrec : link.recipe with
    | none =>
      refine ⟨st, -1, by simp [mark_links, hrec], ⟨marks_extend_refl st, ?_, ?_, Or.inr rfl, ?_⟩⟩
      · intro v h1 h2; rw [h1] at h2; cases h2
      · intro h; cases h
      · intro _; exact Or.inl ⟨link, List.mem_cons_self _ _, hrec⟩
    | some sub =>
      have hsub : sub < cbp.recipes.length := hlinks link (List.mem_cons_self _ _) sub hrec
      obtain ⟨st1, rc1, hc1, hs1⟩ := hcall st sub hlen hsub hfuel
      by_cases hrc : rc1 = 0
      · subst hrc
        have hlen1 : st1.length = cbp.recipes.length := hs1.ext.len.trans hlen
        have hfuel1 : (unmarked cbp.recipes.length st1).card < fuel :=
          lt_of_le_of_lt (unmarked_card_mono _ hs1.ext) hfuel
        obtain ⟨st2, rc, hc2, hs2⟩ := ih st1
          (fun l hl => hlinks l (List.mem_cons_of_mem _ hl)) hlen1 hfuel1
        refine ⟨st2, rc, by simp [mark_links, hrec, hc1, hc2], ⟨?_, ?_, ?_, hs2.code, ?_⟩⟩
        · exact marks_extend_trans hs1.ext hs2.ext
        · intro v h1 h2
          cases h3 : is_required st1 v with
          | true => exact ⟨link, List.mem_cons_self _ _, sub, hrec, hs1.sound v h3 h2⟩
          | false =>
            obtain ⟨l, hl, j, hj, hr⟩ := hs2.sound v h1 h3
            exact ⟨l, List.mem_cons_of_mem _ hl, j, hj, hr⟩
        · intro h0
          obtain ⟨ha, hb⟩ := hs2.ok h0
          refine ⟨?_, ?_⟩
          · intro l hl
            rcases List.mem_cons.1 hl with rfl | hl
            · exact ⟨sub, hrec, is_required_mono hs2.ext (hs1.ok rfl).1⟩
            · exact ha l hl
          · intro v h1 h2
            cases h3 : is_required st1 v with
            | true => exact closed_at_mono hs2.ext ((hs1.ok rfl).2 v h3 h2)
            | false => exact hb v h1 h3
        · intro hm
          rcases hs2.err hm with ⟨l, hl, hn⟩ | ⟨l, hl, j, hj, hv⟩
          · exact Or.inl ⟨l, List.mem_cons_of_mem _ hl, hn⟩
          · exact Or.inr ⟨l, List.mem_cons_of_mem _ hl, j, hj, hv⟩
      · have hm1 : rc1 = -1 := by
          rcases hs1.code with h | h
          · exact absurd h hrc
          · exact h
        refine ⟨st1, -1, by simp [mark_links, hrec, hc1, hrc], ⟨hs1.ext, ?_, ?_, Or.inr rfl, ?_⟩⟩
        · intro v h1 h2
          exact ⟨link, List.mem_cons_self _ _, sub, hrec, hs1.sound v h1 h2⟩
        · intro h; cases h
        · intro _
          exact Or.inr ⟨link, List.mem_cons_self _ _, sub, hrec, hs1.err hm1⟩

theorem mark_required_recipes_spec (cbp : COOKBOOK) (hv : pointers_valid cbp = true) :
    ∀ (fuel : Nat) (st : List RECIPE_STATE) (r : Nat),
      st.length = cbp.recipes.length → r < cbp.recipes.length →
      (unmarked cbp.recipes.length st).card < fuel →
      ∃ st2 rc, mark_required_recipes cbp fuel st r = some (st2, rc) ∧
        MarkSpec cbp st r st2 rc := by
  intro fuel
  induction fuel with
  | zero => intro st r _ _ h; exact absurd h (Nat.not_lt_zero _)
  | succ fuel ih =>
    intro st r hlen hr hfuel
    obtain ⟨rp, hrp⟩ : ∃ rp, cbp.recipes[r]? = some rp :=
      ⟨_, List.getElem?_eq_getElem hr⟩
    obtain ⟨state, hstate⟩ : ∃ s, st[r]? = some s :=
      ⟨_, List.getElem?_eq_getElem (hlen ▸ hr)⟩
    cases hreq : state.required with
    | true =>
      refine ⟨st, 0, by simp [mark_required_recipes, hrp, hstate, hreq],
        ⟨marks_extend_refl st, ?_, ?_, Or.inl rfl, ?_⟩⟩
      · intro v h1 h2; rw [h1] at h2; cases h2
      · intro _
        refine ⟨by simp [is_required, hstate, hreq], ?_⟩
        intro v h1 h2; rw [h1] at h2; cases h2
      · intro h; cases h
    | false =>
      have hext := marks_extend_set hstate
      have hcard := unmarked_card_set hstate hreq hr
      have hfuel1 : (unmarked cbp.recipes.length
          (st.set r { state with required := true })).card < fuel := by omega
      obtain ⟨st2, rc, hc, hs⟩ := mark_links_spec cbp fuel (mark_required_recipes cbp fuel) ih
        rp.this_depends_on (st.set r { state with required := true })
        (fun l hl j hj => pointers_valid_deps hv hrp hl hj)
        (hext.len.trans hlen) hfuel1
      refine ⟨st2, rc, by simp [mark_required_recipes, hrp, hstate, hreq, hc],
        ⟨marks_extend_trans hext hs.ext, ?_, ?_, hs.code, ?_⟩⟩
      · intro v h1 h2
        by_cases hrv : r = v
        · subst hrv; exact Relation.ReflTransGen.refl
        · have h3 : is_required (st.set r { state with required := true }) v = false := by
            rw [is_required_set_ne _ hrv]; exact h2
          obtain ⟨l, hl, j, hj, hreach⟩ := hs.sound v h1 h3
          exact Relation.ReflTransGen.head ⟨rp, hrp, l, hl, hj⟩ hreach
      · intro h0
        obtain ⟨ha, hb⟩ := hs.ok h0
        refine ⟨is_required_mono hs.ext (is_required_set_self hstate), ?_⟩
        intro v h1 h2
        by_cases hrv : r = v
        · subst hrv
          intro rp2 hrp2 l hl
          rw [hrp] at hrp2
          cases hrp2
          exact ha l hl
        · have h3 : is_required (st.set r { state with required := true }) v = false := by
            rw [is_required_set_ne _ hrv]; exact h2
          exact hb v h1 h3
      · intro hm
        rcases hs.err hm with ⟨l, hl, hn⟩ | ⟨l, hl, j, hj, v, hreach, hun⟩
        · exact ⟨r, Relation.ReflTransGen.refl, rp, hrp, l, hl, hn⟩
        · exact ⟨v, Relation.ReflTransGen.head ⟨rp, hrp, l, hl, hj⟩ hreach, hun⟩

/-! ## Dependency analysis: the whole function -/

theorem find_name_from_bound : ∀ (l : List RECIPE) (name : String) (i m : Nat),
    find_name_from l name i = some m → i ≤ m ∧ m < i + l.length := by
  intro l
  induction l with
  | nil => intro name i m h; simp [find_name_from] at h
  | cons rp rest ih =>
    intro name i m h
    simp only [find_name_from] at h
    split at h
    · cases h; simp
    · have := ih name (i + 1) m h
      simp only [List.length_cons]
      omega

theorem find_recipe_by_name_lt {cbp : COOKBOOK} {name : String} {m : Nat}
    (h : find_recipe_by_name cbp name = some m) : m < cbp.recipes.length := by
  have := find_name_from_bound cbp.recipes name 0 m h
  omega

theorem find_name_from_none : ∀ (l : List RECIPE) (name : String) (i : Nat),
    find_name_from l name i = none ↔ ∀ rp ∈ l, rp.name ≠ name := by
  intro l
  induction l with
  | nil => intro name i; simp [find_name_from]
  | cons a rest ih =>
    intro name i
    simp only [find_name_from, List.mem_cons, forall_eq_or_imp]
    by_cases hn : a.name = name
    · simp [hn]
    · simp only [hn, if_false, ne_eq, not_false_eq_true, true_and]
      exact ih name (i + 1)

theorem find_name_from_first : ∀ (l : List RECIPE) (name : String) (i m : Nat),
    find_name_from l name i = some m →
      ∃ k, m = i + k ∧ (∃ rp, l[k]? = some rp ∧ rp.name = name) ∧
        ∀ (j : Nat) (rp : RECIPE), j < k → l[j]? = some rp → rp.name ≠ name := by
  intro l
  induction l with
  | nil => intro name i m h; simp [find_name_from] at h
  | cons a rest ih =>
    intro name i m h
    simp only [find_name_from] at h
    by_cases hn : a.name = name
    · simp only [hn, if_true, Option.some.injEq] at h
      exact ⟨0, by omega, ⟨a, by simp, hn⟩, fun j rp hj => absurd hj (Nat.not_lt_zero _)⟩
    · simp only [hn, if_false] at h
      obtain ⟨k, hm, ⟨rp, hrp, hrn⟩, hfirst⟩ := ih name (i + 1) m h
      refine ⟨k + 1, by omega, ⟨rp, by simpa using hrp, hrn⟩, ?_⟩
      intro j rp2 hj hrp2
      cases j with
      | zero => simp at hrp2; rw [← hrp2]; exact hn
      | succ j => exact hfirst j rp2 (by omega) (by simpa using hrp2)

/-- The lookup finds no recipe exactly when no recipe of the cookbook has the name. -/
theorem find_recipe_by_name_none {cbp : COOKBOOK} {name : String} :
    find_recipe_by_name cbp name = none ↔ ∀ rp ∈ cbp.recipes, rp.name ≠ name :=
  find_name_from_none cbp.recipes name 0

theorem first_named_unique {cbp : COOKBOOK} {name : String} {m m2 : Nat}
    (h : first_named cbp name m) (h2 : first_named cbp name m2) : m = m2 := by
  obtain ⟨⟨rp, hrp, hn⟩, hfirst⟩ := h
  obtain ⟨⟨rp2, hrp2, hn2⟩, hfirst2⟩ := h2
  rcases Nat.lt_trichotomy m m2 with hlt | heq | hgt
  · exact absurd hn (hfirst2 m rp hlt hrp)
  · exact heq
  · exact absurd hn2 (hfirst m2 rp2 hgt hrp2)

/-- The lookup returns the first recipe of the cookbook that has the name. -/
theorem find_recipe_by_name_first {cbp : COOKBOOK} {name : String} {m : Nat} :
    find_recipe_by_name cbp name = some m ↔ first_named cbp name m := by
  constructor
  · intro h
    obtain ⟨k, hm, hrp, hfirst⟩ := find_name_from_first cbp.recipes name 0 m h
    have : m = k := by omega
    subst this
    exact ⟨hrp, hfirst⟩
  · intro h
    cases hf : find_recipe_by_name cbp name with
    | none =>
      obtain ⟨⟨rp, hrp, hn⟩, _⟩ := h
      exact absurd hn (find_recipe_by_name_none.1 hf rp (List.getElem?_mem hrp))
    | some m2 =>
      obtain ⟨k, hm, hrp, hfirst⟩ := find_name_from_first cbp.recipes name 0 m2 hf
      have hk : m2 = k := by omega
      subst hk
      rw [first_named_unique h ⟨hrp, hfirst⟩]

theorem find_recipe_by_name_of_mem {cbp : COOKBOOK} {name : String}
    (h : ∃ rp ∈ cbp.recipes, rp.name = name) :
    ∃ m, find_recipe_by_name cbp name = some m ∧ first_named cbp name m := by
  cases hf : find_recipe_by_name cbp name with
  | none =>
    obtain ⟨rp, hmem, hn⟩ := h
    exact absurd hn (find_recipe_by_name_none.1 hf rp hmem)
  | some m => exact ⟨m, rfl, find_recipe_by_name_first.1 hf⟩

theorem is_required_zero (cbp : COOKBOOK) (v : Nat) :
    is_required (fresh_states cbp) v = false := by
  unfold is_required fresh_states
  rw [List.getElem?_map]
  cases cbp.recipes[v]? <;> rfl

theorem fresh_states_length (cbp : COOKBOOK) :
    (fresh_states cbp).length = cbp.recipes.length := by
  simp [fresh_states]

theorem unmarked_card_le (n : Nat) (st : List RECIPE_STATE) : (unmarked n st).card ≤ n := by
  have h := Finset.card_filter_le (Finset.range n) (fun i => is_required st i = false)
  simpa [unmarked] using h

/-- The marking started on fresh states: the call returns, and when it returns 0
every recipe reachable from `m` is marked and has all its links resolved. -/
theorem mark_from_zero (cbp : COOKBOOK) (hv : pointers_valid cbp = true) (fuel m : Nat)
    (hfuel : cbp.recipes.length < fuel) (hm : m < cbp.recipes.length) :
    ∃ st2 rc, mark_required_recipes cbp fuel (fresh_states cbp) m
        = some (st2, rc) ∧
      MarkSpec cbp (fresh_states cbp) m st2 rc ∧
      (rc = 0 → ∀ v, reachable cbp m v → is_required st2 v = true ∧ closed_at cbp st2 v) := by
  obtain ⟨st2, rc, hc, hs⟩ := mark_required_recipes_spec cbp hv fuel
    (fresh_states cbp) m (fresh_states_length cbp) hm
    (lt_of_le_of_lt (unmarked_card_le _ _) hfuel)
  refine ⟨st2, rc, hc, hs, fun h0 v hreach => ?_⟩
  obtain ⟨ha, hb⟩ := hs.ok h0
  induction hreach with
  | refl => exact ⟨ha, hb m ha (is_required_zero _ _)⟩
  | tail _ hstep ih =>
    obtain ⟨rp, hrp, l, hl, hj⟩ := hstep
    obtain ⟨j, hj2, hreq⟩ := ih.2 rp hrp l hl
    rw [hj] at hj2
    cases hj2
    exact ⟨hreq, hb _ hreq (is_required_zero _ _)⟩

theorem links_resolved_no_unresolved {cbp : COOKBOOK} (h : links_resolved cbp = true)
    (v : Nat) : ¬ has_unresolved_link cbp v := by
  rintro ⟨rp, hrp, l, hl, hn⟩
  simp only [links_resolved, List.all_eq_true] at h
  have := h rp (List.getElem?_mem hrp) l hl
  rw [hn] at this
  cases this

theorem enqueue_leaves_spec (cbp : COOKBOOK) : ∀ (k i : Nat) (e : Engine),
    i + k = cbp.recipes.length →
    (enqueue_leaves (cbp.recipes.drop i) i e).states = e.states ∧
    (enqueue_leaves (cbp.recipes.drop i) i e).active_cooks = e.active_cooks ∧
    (enqueue_leaves (cbp.recipes.drop i) i e).main_recipe_name_global
      = e.main_recipe_name_global ∧
    (enqueue_leaves (cbp.recipes.drop i) i e).requeued = e.requeued ∧
    (enqueue_leaves (cbp.recipes.drop i) i e).dispatched = e.dispatched ∧
    (enqueue_leaves (cbp.recipes.drop i) i e).work_queue = e.work_queue ++
      (List.range' i k).filter (fun j => is_required e.states j && is_leaf cbp j) ∧
    (enqueue_leaves (cbp.recipes.drop i) i e).enqueued = e.enqueued ++
      (List.range' i k).filter (fun j => is_required e.states j && is_leaf cbp j) := by
  intro k
  induction k with
  | zero =>
    intro i e h
    have hd : cbp.recipes.drop i = [] := List.drop_eq_nil_of_le (by omega)
    simp [hd, enqueue_leaves]
  | succ k ih =>
    intro i e h
    have hi : i < cbp.recipes.length := by omega
    have hd : cbp.recipes.drop i = cbp.recipes[i] :: cbp.recipes.drop (i + 1) :=
      List.drop_eq_getElem_cons hi
    have hleaf : is_leaf cbp i = cbp.recipes[i].this_depends_on.isEmpty := by
      simp [is_leaf, List.getElem?_eq_getElem hi]
    rw [hd]
    simp only [enqueue_leaves, List.range'_succ]
    cases hs : e.states[i]? with
    | none =>
      have hreq : is_required e.states i = false := by simp [is_required, hs]
      have := ih (i + 1) e (by omega)
      simpa [List.filter_cons, hreq] using this
    | some state =>
      have hreq : is_required e.states i = state.required := by simp [is_required, hs]
      cases hc : (state.required && cbp.recipes[i].this_depends_on.isEmpty) with
      | true =>
        have := ih (i + 1) (enqueue_recipe e i) (by omega)
        simp only [enqueue_recipe] at this
        simp only [hc, if_true, enqueue_recipe, List.filter_cons, hreq, hleaf]
        simpa [List.append_assoc] using this
      | false =>
        have := ih (i + 1) e (by omega)
        simp only [hc, List.filter_cons, hreq, hleaf]
        simpa using this

theorem reachable_lt {cbp : COOKBOOK} (hv : pointers_valid cbp = true) {m v : Nat}
    (hm : m < cbp.recipes.length) (h : reachable cbp m v) : v < cbp.recipes.length := by
  induction h with
  | refl => exact hm
  | tail _ hstep _ =>
    obtain ⟨rp, hrp, l, hl, hj⟩ := hstep
    exact pointers_valid_deps hv hrp hl hj

theorem is_required_lt {st : List RECIPE_STATE} {v : Nat} (h : is_required st v = true) :
    v < st.length := by
  by_contra hlt
  have : st[v]? = none := List.getElem?_eq_none (by omega)
  simp [is_required, this] at h

/-- C2: when every dependency link of the cookbook is resolved and the main
recipe name is the name of a recipe of the cookbook, `perform_dependency_analysis`
succeeds (given fuel for the recursion) and afterwards a recipe has `required`
set if and only if it is the main recipe (the first recipe declared under the
main recipe name) or is reachable from it along `this_depends_on` links. -/
theorem perform_dependency_analysis_marks_closure (fuel : Nat) (cbp : COOKBOOK)
    (main_recipe_name : String) (e : Engine)
    (hv : pointers_valid cbp = true) (hres : links_resolved cbp = true)
    (hmain : ∃ rp ∈ cbp.recipes, rp.name = main_recipe_name)
    (hfuel : cbp.recipes.length < fuel) :
    ∃ e2 m, perform_dependency_analysis fuel cbp main_recipe_name e = some (e2, 0) ∧
      first_named cbp main_recipe_name m ∧
      ∀ i, is_required e2.states i = true ↔ reachable cbp m i := by
  obtain ⟨m, hfind, hfirst⟩ := find_recipe_by_name_of_mem hmain
  have hm := find_recipe_by_name_lt hfind
  obtain ⟨st2, rc, hc, hs, hclosed⟩ := mark_from_zero cbp hv fuel m hfuel hm
  have hrc : rc = 0 := by
    rcases hs.code with h | h
    · exact h
    · obtain ⟨v, _, hun⟩ := hs.err h
      exact absurd hun (links_resolved_no_unresolved hres v)
  subst hrc
  have hleaves := enqueue_leaves_spec cbp cbp.recipes.length 0
    { e with main_recipe_name_global := some main_recipe_name, states := st2 } (by simp)
  rw [List.drop_zero] at hleaves
  refine ⟨enqueue_leaves cbp.recipes 0
    { e with main_recipe_name_global := some main_recipe_name, states := st2 }, m,
    by simp [perform_dependency_analysis, hfind, hc], hfirst, fun i => ?_⟩
  rw [hleaves.1]
  exact ⟨fun h => hs.sound i h (is_required_zero _ _), fun h => (hclosed rfl i h).1⟩

theorem perform_dependency_analysis_marks_closure_witness :
    first_named book_named "main" 1 ∧
    ∃ e2 m, perform_dependency_analysis 4 book_named "main" init_engine = some (e2, 0) ∧
      first_named book_named "main" m ∧
      ∀ i, is_required e2.states i = true ↔ reachable book_named m i :=
  ⟨find_recipe_by_name_first.1 (by decide),
    perform_dependency_analysis_marks_closure 4 book_named "main" init_engine (by decide)
      (by decide) ⟨⟨"main", [⟨"dep", some 2⟩], [], []⟩, by decide, rfl⟩ (by decide)⟩

theorem perform_dependency_analysis_ok {fuel : Nat} {cbp : COOKBOOK} {name : String}
    {e e2 : Engine} (h : perform_dependency_analysis fuel cbp name e = some (e2, 0)) :
    ∃ m st2, find_recipe_by_name cbp name = some m ∧
      mark_required_recipes cbp fuel (fresh_states cbp) m = some (st2, 0) ∧
      e2 = enqueue_leaves cbp.recipes 0
        { e with main_recipe_name_global := some name, states := st2 } := by
  unfold perform_dependency_analysis at h
  cases hf : find_recipe_by_name cbp name with
  | none => simp [hf] at h
  | some m =>
    simp only [hf] at h
    cases hmk : mark_required_recipes cbp fuel (fresh_states cbp) m with
    | none => simp [hmk] at h
    | some p =>
      obtain ⟨st2, rc⟩ := p
      simp only [hmk] at h
      by_cases hrc : rc = 0
      · subst hrc
        simp at h
        exact ⟨m, st2, rfl, hmk, h.symm⟩
      · simp [hrc] at h

/-- C3: when `perform_dependency_analysis` succeeds starting from an empty
queue, the queue afterwards is the list of the cookbook positions, in
declaration order, of the recipes that are required and have no dependency
link: each of them once, and no other recipe. -/
theorem perform_dependency_analysis_seeds_leaves (fuel : Nat) (cbp : COOKBOOK)
    (main_recipe_name : String) (e e2 : Engine) (hq : e.work_queue = [])
    (h : perform_dependency_analysis fuel cbp main_recipe_name e = some (e2, 0)) :
    e2.work_queue = (List.range cbp.recipes.length).filter
        (fun i => is_required e2.states i && is_leaf cbp i) ∧
      e2.work_queue.Nodup ∧ e2.work_queue.Sorted (· < ·) ∧
      ∀ i, i ∈ e2.work_queue ↔
        i < cbp.recipes.length ∧ is_required e2.states i = true ∧ is_leaf cbp i = true := by
  obtain ⟨m, st2, _, _, he2⟩ := perform_dependency_analysis_ok h
  have hleaves := enqueue_leaves_spec cbp cbp.recipes.length 0
    { e with main_recipe_name_global := some main_recipe_name, states := st2 } (by simp)
  rw [List.drop_zero, ← he2] at hleaves
  obtain ⟨hst, _, _, _, _, hwq, _⟩ := hleaves
  have heq : e2.work_queue = (List.range cbp.recipes.length).filter
      (fun i => is_required e2.states i && is_leaf cbp i) := by
    rw [hwq, hst, List.range_eq_range']
    simp [hq]
  refine ⟨heq, ?_, ?_, ?_⟩
  · rw [heq]; exact (List.nodup_range _).filter _
  · rw [heq]; exact (List.sorted_lt_range _).filter _
  · intro i
    rw [heq]
    simp [List.mem_filter]

theorem perform_dependency_analysis_seeds_leaves_witness :
    init_engine.work_queue = [] ∧
    ∃ e2, perform_dependency_analysis 3 book_main_dep "main" init_engine = some (e2, 0) ∧
      e2.work_queue = [1] :=
  ⟨rfl, _, rfl,
    (perform_dependency_analysis_seeds_leaves 3 book_main_dep "main" init_engine _ rfl rfl).1.trans
      (by decide)⟩

/-- C4 (as amended): `perform_dependency_analysis` returns -1 when no recipe
of the cookbook has the main recipe name, and (on a cookbook whose link pointers
address recipes of the cookbook, given fuel for the recursion) when the main
recipe (the first recipe declared under that name) or a recipe reachable from
it has a dependency link with no resolved recipe; in both cases the Ready Queue
is left as it was. -/
theorem perform_dependency_analysis_fails (fuel : Nat) (cbp : COOKBOOK)
    (main_recipe_name : String) (e : Engine) :
    ((∀ rp ∈ cbp.recipes, rp.name ≠ main_recipe_name) →
      ∃ e2, perform_dependency_analysis fuel cbp main_recipe_name e = some (e2, -1) ∧
        e2.work_queue = e.work_queue ∧ e2.enqueued = e.enqueued) ∧
    (∀ m v, first_named cbp main_recipe_name m →
      pointers_valid cbp = true → cbp.recipes.length < fuel →
      reachable cbp m v → has_unresolved_link cbp v →
      ∃ e2, perform_dependency_analysis fuel cbp main_recipe_name e = some (e2, -1) ∧
        e2.work_queue = e.work_queue ∧ e2.enqueued = e.enqueued) := by
  constructor
  · intro hnone
    have hf := find_recipe_by_name_none.2 hnone
    exact ⟨{ e with main_recipe_name_global := some main_recipe_name },
      by simp [perform_dependency_analysis, hf], rfl, rfl⟩
  · intro m v hfirst hv hfuel hreach hun
    have hf := find_recipe_by_name_first.2 hfirst
    obtain ⟨st2, rc, hc, hs, hclosed⟩ :=
      mark_from_zero cbp hv fuel m hfuel (find_recipe_by_name_lt hf)
    have hrc : rc = -1 := by
      rcases hs.code with h | h
      · obtain ⟨rp, hrp, l, hl, hn⟩ := hun
        obtain ⟨j, hj, _⟩ := (hclosed h v hreach).2 rp hrp l hl
        rw [hn] at hj
        cases hj
      · exact h
    subst hrc
    exact ⟨{ e with main_recipe_name_global := some main_recipe_name, states := st2 },
      by simp [perform_dependency_analysis, hf, hc], rfl, rfl⟩

theorem perform_dependency_analysis_fails_witness :
    (∃ e2, perform_dependency_analysis 4 book_named "mast" init_engine = some (e2, -1) ∧
        e2.work_queue = init_engine.work_queue ∧ e2.enqueued = init_engine.enqueued) ∧
    (∃ e2, perform_dependency_analysis 2 book_missing_dep "main" init_engine = some (e2, -1) ∧
        e2.work_queue = init_engine.work_queue ∧ e2.enqueued = init_engine.enqueued) :=
  ⟨(perform_dependency_analysis_fails 4 book_named "mast" init_engine).1 (by decide),
   (perform_dependency_analysis_fails 2 book_missing_dep "main" init_engine).2 0 0
      (find_recipe_by_name_first.1 (by decide)) (by decide) (by decide)
      Relation.ReflTransGen.refl ⟨_, rfl, ⟨"ghost", none⟩, by decide, rfl⟩⟩

/-- C4 (as stated) fails: a dependency link of the cookbook has no resolved
recipe, yet `perform_dependency_analysis` returns 0 and puts `main` on the queue,
because the link belongs to a recipe that `main` does not need. -/
theorem perform_dependency_analysis_ignores_stray_link :
    links_resolved book_stray_link = false ∧
    has_unresolved_link book_stray_link 1 ∧
    ∃ e2, perform_dependency_analysis 3 book_stray_link "main" init_engine = some (e2, 0) ∧
      e2.work_queue = [0] :=
  ⟨by decide, ⟨_, rfl, ⟨"ghost", none⟩, by decide, rfl⟩, _, rfl, by decide⟩

/-! ## The verdict of `process_recipes` -/

/-- C1 (code defect): in scenario S4 (`main` depends on `dep`, the cook of `dep`
exits with status 1) the run reaches the completion rule with `main` never
dispatched, neither completed nor failed, and `process_recipes` exits with
`EXIT_SUCCESS`; the claim asks for a failure exit. -/
theorem process_recipes_skipped_main_exits_success :
    perform_dependency_analysis 3 book_main_dep "main" init_engine = some (s4_analysed, 0) ∧
      run book_main_dep 1 s4_analysed [.dispatch 100, .reap 100 (.exited 1)]
        = some s4_dep_failed ∧
      processing_complete s4_dep_failed = true ∧
      s4_dep_failed.states[0]? = some ⟨true, false, false, false, 0⟩ ∧
      s4_dep_failed.dispatched = [1] ∧
      process_recipes book_main_dep 1 s4_analysed [.dispatch 100, .reap 100 (.exited 1)]
        = some EXIT_SUCCESS := by
  decide

/-! ## Fuel -/

theorem mark_links_mono
    (call call2 : List RECIPE_STATE → Nat → Option (List RECIPE_STATE × Int))
    (h : ∀ st r x, call st r = some x → call2 st r = some x) :
    ∀ (links : List RECIPE_LINK) (st : List RECIPE_STATE) (x : List RECIPE_STATE × Int),
      mark_links call st links = some x → mark_links call2 st links = some x := by
  intro links
  induction links with
  | nil => intro st x hx; simpa [mark_links] using hx
  | cons link rest ih =>
    intro st x hx
    cases hrec : link.recipe with
    | none => simpa [mark_links, hrec] using hx
    | some sub =>
      cases hc : call st sub with
      | none => simp [mark_links, hrec, hc] at hx
      | some p =>
        obtain ⟨st1, rc⟩ := p
        have hc2 := h st sub _ hc
        by_cases hrc : rc = 0
        · subst hrc
          simp only [mark_links, hrec, hc] at hx
          simp only [mark_links, hrec, hc2]
          exact ih st1 x (by simpa using hx)
        · simp only [mark_links, hrec, hc] at hx
          simp only [mark_links, hrec, hc2]
          simpa [hrc] using hx

theorem mark_required_recipes_succ (cbp : COOKBOOK) :
    ∀ (fuel : Nat) (st : List RECIPE_STATE) (r : Nat) (x : List RECIPE_STATE × Int),
      mark_required_recipes cbp fuel st r = some x →
      mark_required_recipes cbp (fuel + 1) st r = some x := by
  intro fuel
  induction fuel with
  | zero => intro st r x hx; simp [mark_required_recipes] at hx
  | succ fuel ih =>
    intro st r x hx
    rw [mark_required_recipes] at hx ⊢
    cases hrp : cbp.recipes[r]? with
    | none => simp [hrp] at hx
    | some rp =>
      cases hs : st[r]? with
      | none => simp [hrp, hs] at hx
      | some state =>
        simp only [hrp, hs] at hx ⊢
        split at hx
        · rename_i hreq; simpa [hreq] using hx
        · rename_i hreq
          simp only [hreq]
          exact mark_links_mono _ _ ih _ _ _ hx

theorem mark_required_recipes_add (cbp : COOKBOOK) (k : Nat) :
    ∀ (fuel : Nat) (st : List RECIPE_STATE) (r : Nat) (x : List RECIPE_STATE × Int),
      mark_required_recipes cbp fuel st r = some x →
      mark_required_recipes cbp (fuel + k) st r = some x := by
  induction k with
  | zero => intro fuel st r x hx; exact hx
  | succ k ih =>
    intro fuel st r x hx
    exact mark_required_recipes_succ cbp (fuel + k) st r x (ih fuel st r x hx)

/-- Whatever the fuel, a result of the marking started on fresh states meets its specification. -/
theorem mark_from_zero_of_some (cbp : COOKBOOK) (hv : pointers_valid cbp = true)
    {fuel m : Nat} {st2 : List RECIPE_STATE} {rc : Int} (hm : m < cbp.recipes.length)
    (h : mark_required_recipes cbp fuel (fresh_states cbp) m = some (st2, rc)) :
    MarkSpec cbp (fresh_states cbp) m st2 rc ∧
      (rc = 0 → ∀ v, reachable cbp m v → is_required st2 v = true ∧ closed_at cbp st2 v) := by
  have h2 := mark_required_recipes_add cbp (cbp.recipes.length + 1) fuel _ m _ h
  obtain ⟨st3, rc3, hc, hs, hcl⟩ :=
    mark_from_zero cbp hv (fuel + (cbp.recipes.length + 1)) m (by omega) hm
  rw [h2] at hc
  cases hc
  exact ⟨hs, hcl⟩
/-! ## Scheduler: readiness -/

theorem getElem?_set_some {st : List RECIPE_STATE} {r : Nat} {s : RECIPE_STATE}
    (hs : st[r]? = some s) (t : RECIPE_STATE) (i : Nat) :
    (st.set r t)[i]? = if i = r then some t else st[i]? := by
  have hlt : r < st.length := by
    rcases List.getElem?_eq_some_iff.1 hs with ⟨h, _⟩
    exact h
  rw [List.getElem?_set]
  by_cases h : r = i
  · subst h; simp [hlt]
  · have h2 : ¬ i = r := fun h2 => h h2.symm
    simp [h, h2]

theorem deps_completed_true_iff (st : List RECIPE_STATE) : ∀ (links : List RECIPE_LINK),
    deps_completed st links = some true ↔
      ∀ l ∈ links, ∃ d ds, l.recipe = some d ∧ st[d]? = some ds ∧ ds.completed = true := by
  intro links
  induction links with
  | nil => simp [deps_completed]
  | cons link rest ih =>
    simp only [deps_completed, List.mem_cons, forall_eq_or_imp]
    cases hrec : link.recipe with
    | none => simp
    | some d =>
      cases hs : st[d]? with
      | none => simp [hs]
      | some ds =>
        cases hc : ds.completed with
        | false => simp [hs, hc]
        | true => simpa [hs, hc] using ih

theorem is_recipe_ready_true_iff (cbp : COOKBOOK) (st : List RECIPE_STATE) (r : Nat) :
    is_recipe_ready cbp st r = some true ↔ satisfies_I4 cbp st r := by
  unfold is_recipe_ready satisfies_I4
  cases hrp : cbp.recipes[r]? with
  | none => simp
  | some rp =>
    cases hs : st[r]? with
    | none => simp
    | some s =>
      simp only [Option.some.injEq, exists_and_left, exists_eq_left']
      by_cases hflags : (!s.required || s.processing || s.completed || s.failed) = true
      · simp only [hflags, if_true]
        constructor
        · intro h; cases h
        · rintro ⟨h1, h2, h3, h4, _⟩
          simp [h1, h2, h3, h4] at hflags
      · rw [if_neg hflags, deps_completed_true_iff]
        simp only [Bool.or_eq_true, Bool.not_eq_true', not_or, Bool.not_eq_false,
          Bool.not_eq_true] at hflags
        obtain ⟨⟨⟨h1, h2⟩, h3⟩, h4⟩ := hflags
        simp [h1, h2, h3, h4]

/-- No bad dereference: `is_recipe_ready` returns on every recipe of the
cookbook whose links, when it is required, are resolved. -/
theorem is_recipe_ready_returns {cbp : COOKBOOK} {st : List RECIPE_STATE}
    (hlen : st.length = cbp.recipes.length)
    (hcl : ∀ i, is_required st i = true → closed_at cbp st i) {d : Nat}
    (hd : d < cbp.recipes.length) : ∃ b, is_recipe_ready cbp st d = some b := by
  obtain ⟨rp, hrp⟩ : ∃ rp, cbp.recipes[d]? = some rp := ⟨_, List.getElem?_eq_getElem hd⟩
  obtain ⟨s, hs⟩ : ∃ s, st[d]? = some s := ⟨_, List.getElem?_eq_getElem (hlen ▸ hd)⟩
  unfold is_recipe_ready
  simp only [hrp, hs]
  split
  · exact ⟨false, rfl⟩
  · rename_i hflags
    have hreq : is_required st d = true := by
      simp only [Bool.or_eq_true, Bool.not_eq_true', not_or, Bool.not_eq_false] at hflags
      simp [is_required, hs, hflags.1.1.1]
    have hall := hcl d hreq rp hrp
    clear hflags hreq hrp hs
    generalize rp.this_depends_on = links at hall
    induction links with
    | nil => exact ⟨true, rfl⟩
    | cons link rest ih =>
      obtain ⟨j, hj, hjreq⟩ := hall link (List.mem_cons_self _ _)
      obtain ⟨b, hb⟩ := ih (fun l hl => hall l (List.mem_cons_of_mem _ hl))
      have hjlt := is_required_lt hjreq
      simp only [deps_completed, hj, List.getElem?_eq_getElem hjlt]
      split
      · exact ⟨false, rfl⟩
      · exact ⟨b, hb⟩

theorem back_links_ok_spec {cbp : COOKBOOK} (h : back_links_ok cbp = true) {d : Nat}
    {rp : RECIPE} (hrp : cbp.recipes[d]? = some rp) :
    (∀ l ∈ rp.depend_on_this, ∃ j, l.recipe = some j ∧ depends_on cbp j d) ∧
      (rp.depend_on_this.map fun l => l.recipe).Nodup := by
  have hd : d < cbp.recipes.length := by
    rcases List.getElem?_eq_some_iff.1 hrp with ⟨h, _⟩
    exact h
  simp only [back_links_ok, List.all_eq_true, List.mem_range] at h
  have h1 := h d hd
  simp only [hrp, Bool.and_eq_true, List.all_eq_true, decide_eq_true_eq] at h1
  refine ⟨fun l hl => ?_, h1.2⟩
  have h2 := h1.1 l hl
  cases hrec : l.recipe with
  | none => simp [hrec] at h2
  | some j =>
    simp only [hrec] at h2
    cases hrj : cbp.recipes[j]? with
    | none => simp [hrj] at h2
    | some rj =>
      simp only [hrj, List.any_eq_true, beq_iff_eq] at h2
      obtain ⟨k, hk, hkd⟩ := h2
      exact ⟨j, rfl, rj, hrj, k, hk, hkd⟩

theorem pointers_valid_back {cbp : COOKBOOK} (hv : pointers_valid cbp = true) {i : Nat}
    {rp : RECIPE} (hrp : cbp.recipes[i]? = some rp) {l : RECIPE_LINK}
    (hl : l ∈ rp.depend_on_this) {j : Nat} (hj : l.recipe = some j) :
    j < cbp.recipes.length := by
  have hmem : rp ∈ cbp.recipes := List.getElem?_mem hrp
  simp only [pointers_valid, List.all_eq_true, Bool.and_eq_true] at hv
  exact link_in_book_lt ((hv rp hmem).2 l hl) hj
/-! ## Scheduler: the invariant holds after dependency analysis -/

theorem fresh_states_getElem? {cbp : COOKBOOK} {i : Nat} {s : RECIPE_STATE}
    (h : (fresh_states cbp)[i]? = some s) : s = zero_state := by
  unfold fresh_states at h
  rw [List.getElem?_map] at h
  cases hc : cbp.recipes[i]? with
  | none => simp [hc] at h
  | some rp => simp [hc] at h; exact h.symm

theorem marked_fresh_flags {cbp : COOKBOOK} {st2 : List RECIPE_STATE}
    (hext : marks_extend (fresh_states cbp) st2) {i : Nat} {s : RECIPE_STATE}
    (hs : st2[i]? = some s) :
    s.processing = false ∧ s.completed = false ∧ s.failed = false ∧ s.pid = 0 := by
  have hi : i < (fresh_states cbp).length := by
    rcases List.getElem?_eq_some_iff.1 hs with ⟨h, _⟩
    rw [hext.len] at h
    exact h
  obtain ⟨b, hb, _⟩ := hext.flags i _ (List.getElem?_eq_getElem hi)
  rw [hs] at hb
  cases hb
  rw [fresh_states_getElem? (List.getElem?_eq_getElem hi)]
  exact ⟨rfl, rfl, rfl, rfl⟩

theorem is_taken_marked_fresh {cbp : COOKBOOK} {st2 : List RECIPE_STATE}
    (hext : marks_extend (fresh_states cbp) st2) (i : Nat) : is_taken st2 i = false := by
  unfold is_taken
  cases hs : st2[i]? with
  | none => rfl
  | some s =>
    obtain ⟨h1, h2, h3, _⟩ := marked_fresh_flags hext hs
    simp [h1, h2, h3]

theorem count_filter_range (n r : Nat) (p : Nat → Bool) :
    ((List.range n).filter p).count r = if r ∈ (List.range n).filter p then 1 else 0 :=
  List.count_eq_of_nodup ((List.nodup_range n).filter _)

theorem Inv_init {cbp : COOKBOOK} {max_cooks : Int} (hv : pointers_valid cbp = true)
    (hmax : 0 ≤ max_cooks) {fuel : Nat} {name : String} {e1 : Engine}
    (h : perform_dependency_analysis fuel cbp name init_engine = some (e1, 0)) :
    Inv cbp max_cooks e1 := by
  obtain ⟨m, st2, hf, hmk, he2⟩ := perform_dependency_analysis_ok h
  obtain ⟨hs, _⟩ := mark_from_zero_of_some cbp hv (find_recipe_by_name_lt hf) hmk
  have hleaves := enqueue_leaves_spec cbp cbp.recipes.length 0
    { init_engine with main_recipe_name_global := some name, states := st2 } (by simp)
  rw [List.drop_zero, ← he2] at hleaves
  obtain ⟨hst, hac, _, hrq, hdp, hwq, henq⟩ := hleaves
  simp only [init_engine, List.nil_append, ← List.range_eq_range'] at hst hac hrq hdp hwq henq
  have hmem : ∀ r, r ∈ e1.work_queue ↔
      r < cbp.recipes.length ∧ is_required st2 r = true ∧ is_leaf cbp r = true := by
    intro r; rw [hwq]; simp [List.mem_filter]
  refine ⟨?_, ?_, ?_, ?_, ?_, ?_, ?_, ?_, ?_, ?_⟩
  · rw [hst, hs.ext.len, fresh_states_length]
  · intro i hi
    rw [hst] at hi ⊢
    exact (hs.ok rfl).2 i hi (is_required_zero _ _)
  · intro i s hsi
    rw [hst] at hsi
    obtain ⟨h1, h2, h3, h4⟩ := marked_fresh_flags hs.ext hsi
    exact ⟨fun hp => absurd h4 hp, fun hp => by rw [h1] at hp; cases hp⟩
  · intro r hr
    obtain ⟨hlt, hreq, hleaf⟩ := (hmem r).1 hr
    rw [hst]
    obtain ⟨rp, hrp⟩ : ∃ rp, cbp.recipes[r]? = some rp := ⟨_, List.getElem?_eq_getElem hlt⟩
    have hrlt := is_required_lt hreq
    obtain ⟨s, hsr⟩ : ∃ s, st2[r]? = some s := ⟨_, List.getElem?_eq_getElem hrlt⟩
    obtain ⟨h1, h2, h3, _⟩ := marked_fresh_flags hs.ext hsr
    refine ⟨rp, s, hrp, hsr, ?_, h1, h2, h3, ?_⟩
    · simpa [is_required, hsr] using hreq
    · intro l hl
      simp only [is_leaf, hrp, List.isEmpty_iff] at hleaf
      rw [hleaf] at hl
      cases hl
  · rw [hwq]; exact (List.nodup_range _).filter _
  · rw [hst, hac]
    have : processing_count st2 = 0 := by
      unfold processing_count
      rw [List.countP_eq_zero]
      intro s hmem2
      obtain ⟨i, hi⟩ := List.mem_iff_getElem?.1 hmem2
      simp [(marked_fresh_flags hs.ext hi).1]
    simp [this]
  · rw [hac]; exact hmax
  · intro r hr; rw [hdp] at hr; cases hr
  · rw [hdp]; exact List.nodup_nil
  · intro r
    have htk : is_taken e1.states r = false := by rw [hst]; exact is_taken_marked_fresh hs.ext r
    simp only [is_started, htk, Bool.or_false, decide_eq_true_eq, hrq, List.count_nil, zero_add]
    rw [henq, hwq]
    exact count_filter_range _ _ _
/-! ## Scheduler: one state record changes -/

theorem is_required_set_flags {st : List RECIPE_STATE} {r : Nat} {s : RECIPE_STATE}
    (hs : st[r]? = some s) (t : RECIPE_STATE) (ht : t.required = s.required) (i : Nat) :
    is_required (st.set r t) i = is_required st i := by
  unfold is_required
  rw [getElem?_set_some hs]
  by_cases h : i = r
  · subst h; simp [hs, ht]
  · simp [h]

theorem closed_at_congr {cbp : COOKBOOK} {st st2 : List RECIPE_STATE}
    (h : ∀ j, is_required st2 j = is_required st j) {v : Nat} (hc : closed_at cbp st v) :
    closed_at cbp st2 v := by
  intro rp hrp l hl
  obtain ⟨j, hj, hreq⟩ := hc rp hrp l hl
  exact ⟨j, hj, by rw [h]; exact hreq⟩

theorem satisfies_I4_set {cbp : COOKBOOK} {st : List RECIPE_STATE} {r q : Nat}
    {s t : RECIPE_STATE} (hs : st[r]? = some s) (hq : q ≠ r)
    (hc : s.completed = true → t.completed = true) (h : satisfies_I4 cbp st q) :
    satisfies_I4 cbp (st.set r t) q := by
  obtain ⟨rp, sq, hrp, hsq, h1, h2, h3, h4, hdeps⟩ := h
  refine ⟨rp, sq, hrp, ?_, h1, h2, h3, h4, ?_⟩
  · rw [getElem?_set_some hs]; simp [hq, hsq]
  · intro l hl
    obtain ⟨d, ds, hd, hds, hdc⟩ := hdeps l hl
    by_cases hdr : d = r
    · subst hdr
      rw [hs] at hds
      cases hds
      exact ⟨d, t, hd, by rw [getElem?_set_some hs]; simp, hc hdc⟩
    · exact ⟨d, ds, hd, by rw [getElem?_set_some hs]; simp [hdr, hds], hdc⟩

theorem is_taken_set_ne {st : List RECIPE_STATE} {r q : Nat} {s : RECIPE_STATE}
    (hs : st[r]? = some s) (t : RECIPE_STATE) (hq : q ≠ r) :
    is_taken (st.set r t) q = is_taken st q := by
  unfold is_taken
  rw [getElem?_set_some hs]
  simp [hq]

theorem is_taken_set_self {st : List RECIPE_STATE} {r : Nat} {s : RECIPE_STATE}
    (hs : st[r]? = some s) (t : RECIPE_STATE) :
    is_taken (st.set r t) r = (t.processing || t.completed || t.failed) := by
  unfold is_taken
  rw [getElem?_set_some hs]
  simp

theorem processing_count_set : ∀ (st : List RECIPE_STATE) (r : Nat) (s t : RECIPE_STATE),
    st[r]? = some s →
    processing_count (st.set r t) + (if s.processing = true then 1 else 0)
      = processing_count st + (if t.processing = true then 1 else 0) := by
  intro st
  induction st with
  | nil => intro r s t h; simp at h
  | cons a l ih =>
    intro r s t h
    cases r with
    | zero =>
      simp only [List.getElem?_cons_zero, Option.some.injEq] at h
      subst h
      simp only [processing_count, List.set_cons_zero, List.countP_cons]
      omega
    | succ k =>
      simp only [List.getElem?_cons_succ] at h
      have := ih k s t h
      simp only [processing_count, List.set_cons_succ, List.countP_cons] at this ⊢
      omega

/-! ## Scheduler: the dispatch step keeps the invariant -/

theorem dispatch_step_cases {max_cooks : Int} {e e2 : Engine} {fork_result : Int}
    (h : dispatch_step max_cooks e fork_result = some e2) :
    ∃ r rest, e.work_queue = r :: rest ∧ e.active_cooks < max_cooks ∧
      ((fork_result = -1 ∧
          e2 = { e with work_queue := rest ++ [r], enqueued := e.enqueued ++ [r],
                        requeued := e.requeued ++ [r] }) ∨
       (fork_result ≠ -1 ∧ fork_result ≠ 0 ∧ ∃ s, e.states[r]? = some s ∧
          e2 = { e with work_queue := rest,
                        states := e.states.set r { s with processing := true, pid := fork_result },
                        active_cooks := e.active_cooks + 1,
                        dispatched := e.dispatched ++ [r] })) := by
  unfold dispatch_step at h
  split at h
  · rename_i hcond
    simp only [Bool.and_eq_true, Bool.not_eq_true', decide_eq_true_eq, is_work_queue_empty]
      at hcond
    obtain ⟨hne, hlt⟩ := hcond
    cases hq : e.work_queue with
    | nil => simp [hq] at hne
    | cons r rest =>
      refine ⟨r, rest, rfl, hlt, ?_⟩
      simp only [dequeue_recipe, hq] at h
      by_cases h1 : fork_result = -1
      · left
        simp only [h1, if_true, enqueue_recipe, Option.some.injEq] at h
        exact ⟨h1, h.symm⟩
      · right
        simp only [h1, if_false] at h
        by_cases h0 : fork_result = 0
        · simp [h0] at h
        · simp only [h0, if_false] at h
          cases hs : e.states[r]? with
          | none => simp [hs] at h
          | some s =>
            simp only [hs, Option.some.injEq] at h
            exact ⟨h1, h0, s, rfl, h.symm⟩
  · cases h

theorem is_started_congr {e e2 : Engine} (hst : e2.states = e.states)
    (hwq : ∀ x, x ∈ e2.work_queue ↔ x ∈ e.work_queue) (x : Nat) :
    is_started e2 x = is_started e x := by
  simp only [is_started, hst]
  congr 1
  simp only [decide_eq_decide]
  exact hwq x

theorem Inv_dispatch {cbp : COOKBOOK} {cap max_cooks : Int} {e e2 : Engine}
    {fork_result : Int} (hcap : max_cooks ≤ cap) (hI : Inv cbp cap e)
    (h : dispatch_step max_cooks e fork_result = some e2) : Inv cbp cap e2 := by
  obtain ⟨r, rest, hq, hlt, hcase⟩ := dispatch_step_cases h
  have hnd : (r :: rest).Nodup := hq ▸ hI.queue_nodup
  have hr_notin : r ∉ rest := (List.nodup_cons.1 hnd).1
  have hready : satisfies_I4 cbp e.states r := hI.queue_ready r (by rw [hq]; simp)
  rcases hcase with ⟨_, he2⟩ | ⟨_, _, s, hs, he2⟩
  · have e_st : e2.states = e.states := by rw [he2]
    have e_wq : e2.work_queue = rest ++ [r] := by rw [he2]
    have e_ac : e2.active_cooks = e.active_cooks := by rw [he2]
    have e_enq : e2.enqueued = e.enqueued ++ [r] := by rw [he2]
    have e_req : e2.requeued = e.requeued ++ [r] := by rw [he2]
    have e_dsp : e2.dispatched = e.dispatched := by rw [he2]
    have hmem : ∀ x, x ∈ e2.work_queue ↔ x ∈ e.work_queue := by
      intro x
      rw [e_wq, hq]
      simp only [List.mem_append, List.mem_cons, List.not_mem_nil, or_false]
      exact or_comm
    refine ⟨?_, ?_, ?_, ?_, ?_, ?_, ?_, ?_, ?_, ?_⟩
    · rw [e_st]; exact hI.len
    · rw [e_st]; exact hI.req_closed
    · rw [e_st]; exact hI.flags
    · intro q hqm
      rw [e_st]
      exact hI.queue_ready q ((hmem q).1 hqm)
    · rw [e_wq, List.nodup_append_comm]
      exact hnd
    · rw [e_st, e_ac]; exact hI.count
    · rw [e_ac]; exact hI.cap
    · rw [e_st, e_dsp]; exact hI.disp_taken
    · rw [e_dsp]; exact hI.disp_nodup
    · intro x
      have hx := hI.enq_count x
      rw [is_started_congr e_st hmem, e_enq, e_req]
      simp only [List.count_append, hx]
      omega
  · obtain ⟨rp, s0, hrp, hs0, hreq, hproc, hcomp, hfail, hdeps⟩ := hready
    rw [hs] at hs0
    cases hs0
    obtain ⟨t, ht⟩ : ∃ t : RECIPE_STATE, t = { s with processing := true, pid := fork_result } :=
      ⟨_, rfl⟩
    rw [← ht] at he2
    have t_req : t.required = s.required := by rw [ht]
    have t_proc : t.processing = true := by rw [ht]
    have t_comp : t.completed = false := by rw [ht]; exact hcomp
    have t_fail : t.failed = false := by rw [ht]; exact hfail
    have e_st : e2.states = e.states.set r t := by rw [he2]
    have e_wq : e2.work_queue = rest := by rw [he2]
    have e_ac : e2.active_cooks = e.active_cooks + 1 := by rw [he2]
    have e_enq : e2.enqueued = e.enqueued := by rw [he2]
    have e_req : e2.requeued = e.requeued := by rw [he2]
    have e_dsp : e2.dispatched = e.dispatched ++ [r] := by rw [he2]
    have htk_old : is_taken e.states r = false := by
      simp [is_taken, hs, hproc, hcomp, hfail]
    have htk_new : is_taken e2.states r = true := by
      rw [e_st, is_taken_set_self hs, t_proc]
      rfl
    have htk_ne : ∀ x, x ≠ r → is_taken e2.states x = is_taken e.states x := by
      intro x hx
      rw [e_st, is_taken_set_ne hs _ hx]
    have hreq_eq : ∀ j, is_required e2.states j = is_required e.states j := by
      intro j
      rw [e_st]
      exact is_required_set_flags hs t t_req j
    refine ⟨?_, ?_, ?_, ?_, ?_, ?_, ?_, ?_, ?_, ?_⟩
    · rw [e_st, List.length_set]; exact hI.len
    · intro i hi
      rw [hreq_eq] at hi
      exact closed_at_congr hreq_eq (hI.req_closed i hi)
    · intro i s1 hs1
      rw [e_st, getElem?_set_some hs] at hs1
      by_cases hir : i = r
      · simp only [hir, if_true, Option.some.injEq] at hs1
        subst hs1
        exact ⟨fun _ => t_proc, fun _ => ⟨t_comp, t_fail⟩⟩
      · simp only [hir, if_false] at hs1
        exact hI.flags i s1 hs1
    · intro q hqm
      rw [e_wq] at hqm
      rw [e_st]
      have hqr : q ≠ r := fun heq => hr_notin (heq ▸ hqm)
      exact satisfies_I4_set hs hqr (fun hc => by rw [hcomp] at hc; cases hc)
        (hI.queue_ready q (by rw [hq]; exact List.mem_cons_of_mem _ hqm))
    · rw [e_wq]; exact (List.nodup_cons.1 hnd).2
    · have hc := processing_count_set e.states r s t hs
      simp only [hproc, t_proc] at hc
      have hcount := hI.count
      rw [e_st, e_ac]
      have : processing_count (e.states.set r t) = processing_count e.states + 1 := by
        simpa using hc
      rw [this]
      push_cast
      omega
    · rw [e_ac]; have := hI.cap; omega
    · intro x hx
      rw [e_dsp] at hx
      simp only [List.mem_append, List.mem_singleton] at hx
      by_cases hxr : x = r
      · rw [hxr]; exact htk_new
      · rw [htk_ne x hxr]
        rcases hx with h1 | h1
        · exact hI.disp_taken x h1
        · exact absurd h1 hxr
    · rw [e_dsp, List.nodup_append]
      refine ⟨hI.disp_nodup, List.nodup_singleton r, ?_⟩
      intro x hx1 hx2
      rw [List.mem_singleton] at hx2
      subst hx2
      have := hI.disp_taken x hx1
      rw [htk_old] at this
      cases this
    · intro x
      have hx := hI.enq_count x
      have hst : is_started e2 x = is_started e x := by
        simp only [is_started, e_wq, hq]
        by_cases hxr : x = r
        · rw [hxr, htk_new]
          simp
        · rw [htk_ne x hxr]
          simp [hxr]
      rw [hst, e_enq, e_req]
      exact hx
/-! ## Scheduler: the reap step keeps the invariant -/

theorem find_pid_from_spec : ∀ (l : List RECIPE_STATE) (pid : Int) (i m : Nat),
    find_pid_from l pid i = some m →
      ∃ k s, m = i + k ∧ l[k]? = some s ∧ s.pid = pid := by
  intro l
  induction l with
  | nil => intro pid i m h; simp [find_pid_from] at h
  | cons a rest ih =>
    intro pid i m h
    simp only [find_pid_from] at h
    split at h
    · rename_i hp
      cases h
      exact ⟨0, a, rfl, by simp, hp⟩
    · obtain ⟨k, s, hm, hs, hp⟩ := ih pid (i + 1) m h
      exact ⟨k + 1, s, by omega, by simpa using hs, hp⟩

theorem find_recipe_by_pid_spec {e : Engine} {pid : Int} {r : Nat}
    (h : find_recipe_by_pid e pid = some r) : ∃ s, e.states[r]? = some s ∧ s.pid = pid := by
  obtain ⟨k, s, hm, hs, hp⟩ := find_pid_from_spec e.states pid 0 r h
  have : r = k := by omega
  subst this
  exact ⟨s, hs, hp⟩

theorem classify_required (s : RECIPE_STATE) (status : WAIT_STATUS) :
    (classify s status).required = s.required := by
  cases status with
  | exited code => simp only [classify]; split <;> rfl
  | signaled sig => rfl

theorem classify_done (s : RECIPE_STATE) (status : WAIT_STATUS) :
    ((classify s status).completed || (classify s status).failed) = true := by
  cases status with
  | exited code => simp only [classify]; split <;> simp
  | signaled sig => simp [classify]

theorem classify_completed_mono (s : RECIPE_STATE) (status : WAIT_STATUS)
    (h : s.completed = true) : (classify s status).completed = true := by
  cases status with
  | exited code => simp only [classify]; split <;> simp [h]
  | signaled sig => simp [classify, h]

theorem Inv_enqueue {cbp : COOKBOOK} {max_cooks : Int} {e : Engine} {d : Nat}
    (hI : Inv cbp max_cooks e) (hd : satisfies_I4 cbp e.states d) (hq : d ∉ e.work_queue) :
    Inv cbp max_cooks (enqueue_recipe e d) := by
  have e_wq : (enqueue_recipe e d).work_queue = e.work_queue ++ [d] := rfl
  have e_enq : (enqueue_recipe e d).enqueued = e.enqueued ++ [d] := rfl
  have hntk : is_taken e.states d = false := by
    obtain ⟨rp, s, _, hs, _, h2, h3, h4, _⟩ := hd
    simp [is_taken, hs, h2, h3, h4]
  refine ⟨hI.len, hI.req_closed, hI.flags, ?_, ?_, hI.count, hI.cap, hI.disp_taken,
    hI.disp_nodup, ?_⟩
  · intro q hqm
    rw [e_wq] at hqm
    simp only [List.mem_append, List.mem_cons, List.not_mem_nil, or_false] at hqm
    rcases hqm with h1 | h1
    · exact hI.queue_ready q h1
    · rw [h1]; exact hd
  · rw [e_wq, List.nodup_append]
    refine ⟨hI.queue_nodup, List.nodup_singleton d, ?_⟩
    intro x hx1 hx2
    rw [List.mem_singleton] at hx2
    exact hq (hx2 ▸ hx1)
  · intro x
    have hx := hI.enq_count x
    rw [e_enq, List.count_append]
    have e_req : (enqueue_recipe e d).requeued = e.requeued := rfl
    have e_st : (enqueue_recipe e d).states = e.states := rfl
    rw [e_req, hx]
    by_cases hxd : x = d
    · subst hxd
      have h1 : is_started e x = false := by simp [is_started, hq, hntk]
      have h2 : is_started (enqueue_recipe e x) x = true := by
        simp [is_started, e_wq]
      simp [h1, h2]
    · have h1 : is_started (enqueue_recipe e d) x = is_started e x := by
        simp only [is_started, e_wq, e_st]
        congr 1
        simp [hxd]
      have h2 : List.count x [d] = 0 := by
        rw [List.count_eq_zero]
        simpa using hxd
      rw [h1, h2]
      rfl

theorem enqueue_ready_Inv {cbp : COOKBOOK} {max_cooks : Int} :
    ∀ (links : List RECIPE_LINK) (e : Engine), Inv cbp max_cooks e →
      (∀ l ∈ links, ∃ d, l.recipe = some d ∧ d < cbp.recipes.length ∧ d ∉ e.work_queue) →
      (links.map fun l => l.recipe).Nodup →
      ∃ e2 new, enqueue_ready cbp e links = some e2 ∧ Inv cbp max_cooks e2 ∧
        e2.states = e.states ∧ e2.active_cooks = e.active_cooks ∧
        e2.main_recipe_name_global = e.main_recipe_name_global ∧
        e2.requeued = e.requeued ∧ e2.dispatched = e.dispatched ∧
        e2.work_queue = e.work_queue ++ new ∧ e2.enqueued = e.enqueued ++ new ∧
        ∀ d ∈ new, satisfies_I4 cbp e.states d ∧ d ∉ e.work_queue := by
  intro links
  induction links with
  | nil =>
    intro e hI _ _
    exact ⟨e, [], rfl, hI, rfl, rfl, rfl, rfl, rfl, by simp, by simp, by simp⟩
  | cons link rest ih =>
    intro e hI hlinks hnd
    obtain ⟨d, hd, hdlt, hdq⟩ := hlinks link (List.mem_cons_self _ _)
    simp only [List.map_cons, List.nodup_cons] at hnd
    obtain ⟨hdnot, hnd2⟩ := hnd
    have hrest : ∀ l ∈ rest, ∃ d2, l.recipe = some d2 ∧ d2 < cbp.recipes.length ∧
        d2 ∉ e.work_queue := fun l hl => hlinks l (List.mem_cons_of_mem _ hl)
    obtain ⟨b, hb⟩ := is_recipe_ready_returns hI.len hI.req_closed hdlt
    cases b with
    | false =>
      obtain ⟨e2, new, hrun, hI2, h1, h2, h3, h4, h5, h6, h7, h8⟩ := ih e hI hrest hnd2
      exact ⟨e2, new, by simp [enqueue_ready, hd, hb, hrun], hI2, h1, h2, h3, h4, h5, h6, h7, h8⟩
    | true =>
      have hI4 : satisfies_I4 cbp e.states d := (is_recipe_ready_true_iff _ _ _).1 hb
      have hI1 := Inv_enqueue hI hI4 hdq
      have hrest1 : ∀ l ∈ rest, ∃ d2, l.recipe = some d2 ∧ d2 < cbp.recipes.length ∧
          d2 ∉ (enqueue_recipe e d).work_queue := by
        intro l hl
        obtain ⟨d2, hd2, hlt2, hq2⟩ := hrest l hl
        refine ⟨d2, hd2, hlt2, ?_⟩
        have e_wq : (enqueue_recipe e d).work_queue = e.work_queue ++ [d] := rfl
        rw [e_wq]
        simp only [List.mem_append, List.mem_cons, List.not_mem_nil, or_false, not_or]
        refine ⟨hq2, fun heq => hdnot ?_⟩
        rw [hd, ← heq, ← hd2]
        exact List.mem_map_of_mem _ hl
      obtain ⟨e2, new, hrun, hI2, h1, h2, h3, h4, h5, h6, h7, h8⟩ :=
        ih (enqueue_recipe e d) hI1 hrest1 hnd2
      refine ⟨e2, d :: new, by simp [enqueue_ready, hd, hb, hrun], hI2, h1, h2, h3, h4, h5, ?_,
        ?_, ?_⟩
      · rw [h6]; simp [enqueue_recipe]
      · rw [h7]; simp [enqueue_recipe]
      · intro x hx
        rcases List.mem_cons.1 hx with h9 | h9
        · rw [h9]; exact ⟨hI4, hdq⟩
        · obtain ⟨ha, hb2⟩ := h8 x h9
          refine ⟨ha, fun hmem => hb2 ?_⟩
          have e_wq : (enqueue_recipe e d).work_queue = e.work_queue ++ [d] := rfl
          rw [e_wq]
          exact List.mem_append_left _ hmem

theorem Inv_reaped {cbp : COOKBOOK} {max_cooks : Int} {e e1 : Engine} {r : Nat}
    {s t : RECIPE_STATE} (status : WAIT_STATUS) (hI : Inv cbp max_cooks e)
    (hs : e.states[r]? = some s) (hpid : s.pid ≠ 0)
    (ht : t = { classify s status with processing := false, pid := 0 })
    (e_st : e1.states = e.states.set r t) (e_wq : e1.work_queue = e.work_queue)
    (e_ac : e1.active_cooks = e.active_cooks - 1) (e_enq : e1.enqueued = e.enqueued)
    (e_req : e1.requeued = e.requeued) (e_dsp : e1.dispatched = e.dispatched) :
    Inv cbp max_cooks e1 := by
  have hproc : s.processing = true := (hI.flags r s hs).1 hpid
  obtain ⟨hcomp, hfail⟩ := (hI.flags r s hs).2 hproc
  have t_req : t.required = s.required := by rw [ht]; exact classify_required s status
  have t_proc : t.processing = false := by rw [ht]
  have t_pid : t.pid = 0 := by rw [ht]
  have t_done : (t.completed || t.failed) = true := by rw [ht]; exact classify_done s status
  have htk_old : is_taken e.states r = true := by simp [is_taken, hs, hproc]
  have htk_new : is_taken e1.states r = true := by
    rw [e_st, is_taken_set_self hs, t_proc]
    simpa using t_done
  have htk_ne : ∀ x, x ≠ r → is_taken e1.states x = is_taken e.states x := by
    intro x hx
    rw [e_st, is_taken_set_ne hs _ hx]
  have htk : ∀ x, is_taken e1.states x = is_taken e.states x := by
    intro x
    by_cases hx : x = r
    · rw [hx, htk_new, htk_old]
    · exact htk_ne x hx
  have hreq_eq : ∀ j, is_required e1.states j = is_required e.states j := by
    intro j
    rw [e_st]
    exact is_required_set_flags hs t t_req j
  refine ⟨?_, ?_, ?_, ?_, ?_, ?_, ?_, ?_, ?_, ?_⟩
  · rw [e_st, List.length_set]; exact hI.len
  · intro i hi
    rw [hreq_eq] at hi
    exact closed_at_congr hreq_eq (hI.req_closed i hi)
  · intro i s1 hs1
    rw [e_st, getElem?_set_some hs] at hs1
    by_cases hir : i = r
    · simp only [hir, if_true, Option.some.injEq] at hs1
      subst hs1
      exact ⟨fun h => absurd t_pid h, fun h => by rw [t_proc] at h; cases h⟩
    · simp only [hir, if_false] at hs1
      exact hI.flags i s1 hs1
  · intro q hqm
    rw [e_wq] at hqm
    rw [e_st]
    have hq4 := hI.queue_ready q hqm
    have hqr : q ≠ r := by
      intro heq
      obtain ⟨_, sq, _, hsq, _, h2, _⟩ := hq4
      rw [heq, hs] at hsq
      cases hsq
      rw [hproc] at h2
      cases h2
    exact satisfies_I4_set hs hqr (fun hc => by rw [hcomp] at hc; cases hc) hq4
  · rw [e_wq]; exact hI.queue_nodup
  · have hc := processing_count_set e.states r s t hs
    simp only [hproc, t_proc] at hc
    have hcount := hI.count
    rw [e_st, e_ac]
    have : processing_count e.states = processing_count (e.states.set r t) + 1 := by
      simpa using hc.symm
    rw [← hcount, this]
    push_cast
    omega
  · rw [e_ac]; have := hI.cap; omega
  · intro x hx
    rw [e_dsp] at hx
    rw [htk]
    exact hI.disp_taken x hx
  · rw [e_dsp]; exact hI.disp_nodup
  · intro x
    have hx := hI.enq_count x
    have hst : is_started e1 x = is_started e x := by
      simp only [is_started, e_wq, htk]
    rw [hst, e_enq, e_req]
    exact hx

/-- A recipe that depends on a recipe being processed is not on the queue. -/
theorem dependent_not_queued {cbp : COOKBOOK} {max_cooks : Int} {e : Engine} {r d : Nat}
    {s : RECIPE_STATE} (hI : Inv cbp max_cooks e) (hs : e.states[r]? = some s)
    (hproc : s.processing = true) (hdep : depends_on cbp d r) : d ∉ e.work_queue := by
  intro hmem
  obtain ⟨rp, sd, hrp, _, _, _, _, _, hdeps⟩ := hI.queue_ready d hmem
  obtain ⟨rp2, hrp2, l, hl, hlr⟩ := hdep
  rw [hrp] at hrp2
  cases hrp2
  obtain ⟨d2, ds, hd2, hds, hdc⟩ := hdeps l hl
  rw [hlr] at hd2
  cases hd2
  rw [hs] at hds
  cases hds
  rw [((hI.flags r s hs).2 hproc).1] at hdc
  cases hdc

theorem Inv_reap {cbp : COOKBOOK} {max_cooks : Int} {e : Engine} (hv : pointers_valid cbp = true)
    (hb : back_links_ok cbp = true) (hI : Inv cbp max_cooks e) (pid : Int)
    (status : WAIT_STATUS) (hpid : 0 < pid) :
    ∃ e2, reap_step cbp e pid status = some e2 ∧ Inv cbp max_cooks e2 ∧
      ReapEffect cbp e e2 := by
  have hnp : ¬ pid ≤ 0 := by omega
  unfold reap_step
  rw [if_neg hnp]
  cases hf : find_recipe_by_pid e pid with
  | none =>
    exact ⟨e, rfl, hI, ⟨rfl, rfl, rfl, rfl, [], by simp, by simp, by simp⟩⟩
  | some r =>
    obtain ⟨s, hs, hsp⟩ := find_recipe_by_pid_spec hf
    have hrlt : r < cbp.recipes.length := by
      rcases List.getElem?_eq_some_iff.1 hs with ⟨h, _⟩
      rw [hI.len] at h
      exact h
    obtain ⟨rp, hrp⟩ : ∃ rp, cbp.recipes[r]? = some rp := ⟨_, List.getElem?_eq_getElem hrlt⟩
    have hsne : s.pid ≠ 0 := by rw [hsp]; omega
    have hproc : s.processing = true := (hI.flags r s hs).1 hsne
    obtain ⟨t, ht⟩ : ∃ t : RECIPE_STATE,
        t = { classify s status with processing := false, pid := 0 } := ⟨_, rfl⟩
    obtain ⟨e1, he1⟩ : ∃ e1 : Engine,
        e1 = { e with states := e.states.set r t, active_cooks := e.active_cooks - 1 } := ⟨_, rfl⟩
    have hI1 : Inv cbp max_cooks e1 :=
      Inv_reaped status hI hs hsne ht (by rw [he1]) (by rw [he1]) (by rw [he1]) (by rw [he1])
        (by rw [he1]) (by rw [he1])
    obtain ⟨hback, hnd⟩ := back_links_ok_spec hb hrp
    have hlinks : ∀ l ∈ rp.depend_on_this, ∃ d, l.recipe = some d ∧ d < cbp.recipes.length ∧
        d ∉ e1.work_queue := by
      intro l hl
      obtain ⟨d, hd, hdep⟩ := hback l hl
      refine ⟨d, hd, pointers_valid_back hv hrp hl hd, ?_⟩
      have : e1.work_queue = e.work_queue := by rw [he1]
      rw [this]
      exact dependent_not_queued hI hs hproc hdep
    obtain ⟨e2, new, hrun, hI2, h1, h2, h3, h4, h5, h6, h7, h8⟩ :=
      enqueue_ready_Inv rp.depend_on_this e1 hI1 hlinks hnd
    refine ⟨e2, ?_, hI2, ⟨?_, ?_, ?_, ?_, new, ?_, ?_, ?_⟩⟩
    · simp only [hrp, hs]
      rw [← ht, ← he1]
      exact hrun
    · rw [h1, he1]; simp
    · rw [h3, he1]
    · rw [h4, he1]
    · rw [h5, he1]
    · rw [h6, he1]
    · rw [h7, he1]
    · intro d hd
      obtain ⟨ha, hb2⟩ := h8 d hd
      rw [h1]
      refine ⟨ha, ?_⟩
      have : e1.work_queue = e.work_queue := by rw [he1]
      rw [← this]
      exact hb2

/-! ## Scheduler: runs -/

theorem Inv_step {cbp : COOKBOOK} {cap max_cooks : Int} {e e2 : Engine}
    (hv : pointers_valid cbp = true) (hb : back_links_ok cbp = true) (hcap : max_cooks ≤ cap)
    (hI : Inv cbp cap e) (ev : Event) (h : step cbp max_cooks e ev = some e2) :
    Inv cbp cap e2 := by
  cases ev with
  | dispatch fork_result => exact Inv_dispatch hcap hI h
  | reap pid status =>
    simp only [step] at h
    by_cases hpid : 0 < pid
    · obtain ⟨e3, h3, hI3, _⟩ := Inv_reap hv hb hI pid status hpid
      rw [h] at h3
      cases h3
      exact hI3
    · have : pid ≤ 0 := by omega
      simp [reap_step, this] at h

theorem Inv_run {cbp : COOKBOOK} {cap max_cooks : Int} (hv : pointers_valid cbp = true)
    (hb : back_links_ok cbp = true) (hcap : max_cooks ≤ cap) :
    ∀ (evs : List Event) (e e2 : Engine),
      Inv cbp cap e → run cbp max_cooks e evs = some e2 → Inv cbp cap e2 := by
  intro evs
  induction evs with
  | nil => intro e e2 hI h; simp only [run, Option.some.injEq] at h; exact h ▸ hI
  | cons ev rest ih =>
    intro e e2 hI h
    simp only [run] at h
    cases hs : step cbp max_cooks e ev with
    | none => simp [hs] at h
    | some e1 =>
      simp only [hs] at h
      exact ih e1 e2 (Inv_step hv hb hcap hI ev hs) h

/-- Every engine state that a run reaches satisfies the invariant, for every
bound `cap` that is at least 0 and at least `max_cooks`. -/
theorem Inv_reachable {cbp : COOKBOOK} {cap max_cooks : Int} {e : Engine}
    (hv : pointers_valid cbp = true) (hb : back_links_ok cbp = true) (h0 : 0 ≤ cap)
    (hcap : max_cooks ≤ cap) (h : reachable_engine cbp max_cooks e) : Inv cbp cap e := by
  obtain ⟨fuel, name, e1, evs, hpda, hrun⟩ := h
  exact Inv_run hv hb hcap evs e1 e (Inv_init hv h0 hpda) hrun
/-! ## Scheduler: the claims -/

/-- C8 (as stated) fails: when `fork` fails the dequeued recipe is enqueued
again, so `dep` is enqueued twice in this run. -/
theorem requeue_enqueues_twice :
    reachable_engine book_main_dep 1 s4_requeued ∧ s4_requeued.enqueued.count 1 = 2 :=
  ⟨⟨3, "main", s4_analysed, [.dispatch (-1)], by decide, by decide⟩, by decide⟩

/-- C8 (as amended): on a recipe graph whose link pointers address recipes of the
cookbook and whose `depend_on_this` links are the back-edges of `this_depends_on` links,
no dependent listed twice, in every run each recipe is enqueued at most once, not
counting the times it is put back on the queue after a failed `fork`, and the queue
never holds a recipe twice; a reap step only appends to the queue, and it appends a
dependent only if that dependent satisfies I4 and is not on the queue. -/
theorem enqueued_at_most_once_but_requeues (cbp : COOKBOOK) (max_cooks : Int) (e : Engine)
    (hv : pointers_valid cbp = true) (hb : back_links_ok cbp = true)
    (hreach : reachable_engine cbp max_cooks e) :
    (∀ r, e.enqueued.count r ≤ e.requeued.count r + 1) ∧ e.work_queue.Nodup ∧
    ∀ pid status e2, reap_step cbp e pid status = some e2 →
      ∃ new, e2.work_queue = e.work_queue ++ new ∧ e2.enqueued = e.enqueued ++ new ∧
        e2.requeued = e.requeued ∧
        ∀ d ∈ new, satisfies_I4 cbp e2.states d ∧ d ∉ e.work_queue := by
  have hI : Inv cbp (max max_cooks 0) e :=
    Inv_reachable hv hb (le_max_right _ _) (le_max_left _ _) hreach
  refine ⟨fun r => ?_, hI.queue_nodup, fun pid status e2 h => ?_⟩
  · rw [hI.enq_count r]
    split <;> omega
  · by_cases hpid : 0 < pid
    · obtain ⟨e3, h3, _, heff⟩ := Inv_reap hv hb hI pid status hpid
      rw [h] at h3
      cases h3
      obtain ⟨new, h1, h2, h3⟩ := heff.added
      exact ⟨new, h1, h2, heff.requeued, h3⟩
    · have : pid ≤ 0 := by omega
      simp [reap_step, this] at h

theorem enqueued_at_most_once_but_requeues_witness :
    reachable_engine book_main_dep 1 s4_requeued_dep_done ∧
      ((∀ r, s4_requeued_dep_done.enqueued.count r ≤ s4_requeued_dep_done.requeued.count r + 1) ∧
      s4_requeued_dep_done.work_queue.Nodup ∧
      ∀ pid status e2, reap_step book_main_dep s4_requeued_dep_done pid status = some e2 →
        ∃ new, e2.work_queue = s4_requeued_dep_done.work_queue ++ new ∧
          e2.enqueued = s4_requeued_dep_done.enqueued ++ new ∧
          e2.requeued = s4_requeued_dep_done.requeued ∧
          ∀ d ∈ new, satisfies_I4 book_main_dep e2.states d ∧
            d ∉ s4_requeued_dep_done.work_queue) :=
  ⟨⟨3, "main", s4_analysed, [.dispatch (-1), .dispatch 100, .reap 100 (.exited 0)],
      by decide, by decide⟩,
    enqueued_at_most_once_but_requeues book_main_dep 1 s4_requeued_dep_done (by decide)
      (by decide)
      ⟨3, "main", s4_analysed, [.dispatch (-1), .dispatch 100, .reap 100 (.exited 0)],
        by decide, by decide⟩⟩
/-! ## Pipeline executor -/

theorem spawn_loop_all (fork : Nat → Int) : ∀ (k i : Nat),
    (∀ j, i ≤ j → j < i + k → fork j ≠ -1 ∧ fork j ≠ 0) → spawn_loop fork k i = some false := by
  intro k
  induction k with
  | zero => intro i _; rfl
  | succ k ih =>
    intro i h
    obtain ⟨h1, h2⟩ := h i (le_refl _) (by omega)
    simp only [spawn_loop, h1, h2, if_false]
    exact ih (i + 1) (fun j hj1 hj2 => h j (by omega) (by omega))

theorem wait_loop_succ (wait : Nat → WAIT_RESULT) (n : Nat) :
    wait_loop wait (n + 1) = wait_one (wait_loop wait n) (wait n) := by
  simp [wait_loop, List.range_succ, List.foldl_append]

theorem last_nonzero_exit_succ (wait : Nat → WAIT_RESULT) (n : Nat) :
    last_nonzero_exit wait (n + 1) =
      match nonzero_exit (wait n) with
      | some c => some c
      | none => last_nonzero_exit wait n := by
  simp only [last_nonzero_exit, List.range_succ, List.reverse_append, List.reverse_singleton,
    List.singleton_append, List.filterMap_cons]
  cases nonzero_exit (wait n) <;> simp

/-- What the `waitpid` loop has computed after `n` stages. -/
theorem wait_loop_spec (wait : Nat → WAIT_RESULT) : ∀ (n : Nat),
    ((wait_loop wait n).1 = false ↔ ∀ i < n, wait i = .status (.exited 0)) ∧
    (wait_loop wait n).2 =
      (match last_nonzero_exit wait n with
       | some c => (c : Int)
       | none => 0) ∧
    (∀ c, last_nonzero_exit wait n = some c → c ≠ 0) := by
  intro n
  induction n with
  | zero => simp [wait_loop, last_nonzero_exit]
  | succ n ih =>
    obtain ⟨ih1, ih2, ih3⟩ := ih
    rw [wait_loop_succ, last_nonzero_exit_succ]
    have hall : (∀ i < n + 1, wait i = .status (.exited 0)) ↔
        (∀ i < n, wait i = .status (.exited 0)) ∧ wait n = .status (.exited 0) := by
      constructor
      · intro h; exact ⟨fun i hi => h i (by omega), h n (by omega)⟩
      · rintro ⟨h1, h2⟩ i hi
        rcases Nat.lt_succ_iff_lt_or_eq.1 hi with h | h
        · exact h1 i h
        · rw [h]; exact h2
    rw [hall]
    cases hw : wait n with
    | error => simpa [wait_one, nonzero_exit, ih2] using ih3
    | status s =>
      cases s with
      | signaled sig => simpa [wait_one, nonzero_exit, ih2] using ih3
      | exited code =>
        by_cases hc : code = 0
        · subst hc
          simpa [wait_one, nonzero_exit, ih1, ih2] using ih3
        · have hc2 : ¬ (code : Int) = 0 := by exact_mod_cast hc
          simp [wait_one, nonzero_exit, hc, hc2]

theorem execute_task_spawned {env : TASK_ENV} {task : TASK} (hne : task.steps ≠ [])
    (h : all_spawned env task) :
    execute_task env task =
      if (wait_loop env.wait task.steps.length).1 then
        some (if (wait_loop env.wait task.steps.length).2 ≠ 0 then
          (wait_loop env.wait task.steps.length).2 else -1)
      else some 0 := by
  obtain ⟨h1, h2, h3, h4, h5⟩ := h
  have hlen : task.steps.length ≠ 0 := fun h0 => hne (List.length_eq_zero.1 h0)
  have hsp := spawn_loop_all env.fork task.steps.length 0 (fun j _ hj => h5 j (by omega))
  unfold execute_task
  simp only [hlen, if_false, h1, Bool.not_true, Bool.false_eq_true, hsp]
  have hp : (decide (task.steps.length > 1) && !env.pipes_ok) = false := by
    by_cases hgt : 1 < task.steps.length
    · simp [h2 hgt]
    · simp [hgt]
  have hi : (task.input_file.isSome && !env.open_input_ok) = false := by
    cases hx : task.input_file.isSome with
    | false => rfl
    | true => simp [h3 hx]
  have ho : (task.output_file.isSome && !env.open_output_ok) = false := by
    cases hx : task.output_file.isSome with
    | false => rfl
    | true => simp [h4 hx]
  simp only [hp, hi, ho, Bool.false_eq_true, if_false]

/-- C9: `execute_task` returns 0 for a task with no step; for a task with at
least one stage, all of them spawned, it returns 0 if and only if every stage
exited normally with status 0, and otherwise it returns the exit status of the
last stage that exited with a non-zero status, or -1 when there is no such
stage. -/
theorem execute_task_status (env : TASK_ENV) (task : TASK) :
    (task.steps = [] → execute_task env task = some 0) ∧
    (task.steps ≠ [] → all_spawned env task →
      ∃ rc, execute_task env task = some rc ∧
        (rc = 0 ↔ ∀ i < task.steps.length, env.wait i = .status (.exited 0)) ∧
        (rc ≠ 0 → rc =
          match last_nonzero_exit env.wait task.steps.length with
          | some c => (c : Int)
          | none => -1)) := by
  constructor
  · intro h
    simp [execute_task, h]
  · intro hne hsp
    rw [execute_task_spawned hne hsp]
    obtain ⟨h1, h2, h3⟩ := wait_loop_spec env.wait task.steps.length
    cases hf : (wait_loop env.wait task.steps.length).1 with
    | false =>
      refine ⟨0, by simp, ?_, ?_⟩
      · simp only [true_iff]
        exact h1.1 hf
      · intro h; exact absurd rfl h
    | true =>
      have hnot : ¬ ∀ i < task.steps.length, env.wait i = .status (.exited 0) := by
        intro hall
        have := h1.2 hall
        rw [hf] at this
        cases this
      cases hl : last_nonzero_exit env.wait task.steps.length with
      | none =>
        rw [hl] at h2
        simp only at h2
        refine ⟨-1, by simp [h2], ?_, ?_⟩
        · simp [hnot]
        · intro _; rfl
      | some c =>
        rw [hl] at h2
        simp only at h2
        have hc : (c : Int) ≠ 0 := by exact_mod_cast h3 c hl
        refine ⟨(c : Int), by simp [h2, hc], ?_, ?_⟩
        · simp [hc, hnot]
        · intro _; rfl

theorem execute_task_status_witness :
    execute_task env_all_ok ⟨[], none, none⟩ = some 0 ∧
    task_cat_wc.steps ≠ [] ∧ all_spawned env_first_fails task_cat_wc ∧
    execute_task env_first_fails task_cat_wc = some 3 ∧
    ∃ rc, execute_task env_first_fails task_cat_wc = some rc ∧
      (rc = 0 ↔ ∀ i < task_cat_wc.steps.length,
        env_first_fails.wait i = .status (.exited 0)) ∧
      (rc ≠ 0 → rc =
        match last_nonzero_exit env_first_fails.wait task_cat_wc.steps.length with
        | some c => (c : Int)
        | none => -1) :=
  have hsp : all_spawned env_first_fails task_cat_wc :=
    ⟨rfl, fun _ => rfl, fun _ => rfl, fun h => (by cases h),
      fun i _ => (by simp only [env_first_fails]; omega)⟩
  ⟨(execute_task_status env_all_ok ⟨[], none, none⟩).1 rfl, by decide, hsp, by decide,
    (execute_task_status env_first_fails task_cat_wc).2 (by decide) hsp⟩
/-! ## Cook process -/

theorem spawn_loop_returns (fork : Nat → Int) (hcook : ∀ j, fork j ≠ 0) : ∀ (k i : Nat),
    ∃ b, spawn_loop fork k i = some b := by
  intro k
  induction k with
  | zero => intro i; exact ⟨false, rfl⟩
  | succ k ih =>
    intro i
    simp only [spawn_loop, hcook i, if_false]
    split
    · exact ⟨true, rfl⟩
    · exact ih (i + 1)

/-- In the cook process (no `fork` returns 0) `execute_task` returns. -/
theorem execute_task_returns (env : TASK_ENV) (task : TASK) (hcook : ∀ j, env.fork j ≠ 0) :
    ∃ rc, execute_task env task = some rc := by
  obtain ⟨b, hb⟩ := spawn_loop_returns env.fork hcook task.steps.length 0
  unfold execute_task
  simp only [hb]
  split
  · exact ⟨_, rfl⟩
  · split
    · exact ⟨_, rfl⟩
    · split
      · exact ⟨_, rfl⟩
      · split
        · exact ⟨_, rfl⟩
        · split
          · exact ⟨_, rfl⟩
          · cases b with
            | true => exact ⟨_, rfl⟩
            | false =>
              simp only
              split <;> exact ⟨_, rfl⟩

theorem process_recipe_loop_spec (envs : Nat → TASK_ENV) (tasks : List TASK)
    (hcook : ∀ i j, (envs i).fork j ≠ 0) (state : RECIPE_STATE) :
    ∀ (m i : Nat) (log : List Nat), i + m = tasks.length →
      ∃ state2 k, process_recipe_loop envs (tasks.drop i) i state log
          = some (state2, log ++ List.range' i k) ∧
        k ≤ m ∧
        (∀ j, i ≤ j → j + 1 < i + k → task_result envs tasks j = some 0) ∧
        ((k = m ∧ (∀ j, i ≤ j → j < tasks.length → task_result envs tasks j = some 0) ∧
            state2 = { state with failed := false, completed := true }) ∨
         (0 < k ∧ (∃ rc, task_result envs tasks (i + k - 1) = some rc ∧ rc ≠ 0) ∧
            state2 = { state with failed := true })) := by
  intro m
  induction m with
  | zero =>
    intro i log h
    have hd : tasks.drop i = [] := List.drop_eq_nil_of_le (by omega)
    refine ⟨{ state with failed := false, completed := true }, 0, by simp [hd, process_recipe_loop],
      le_refl _, fun j h1 h2 => by omega, Or.inl ⟨rfl, fun j h1 h2 => by omega, rfl⟩⟩
  | succ m ih =>
    intro i log h
    have hi : i < tasks.length := by omega
    have hd : tasks.drop i = tasks[i] :: tasks.drop (i + 1) := List.drop_eq_getElem_cons hi
    obtain ⟨rc, hrc⟩ := execute_task_returns (envs i) tasks[i] (hcook i)
    have hres : task_result envs tasks i = some rc := by
      simp [task_result, List.getElem?_eq_getElem hi, hrc]
    rw [hd]
    simp only [process_recipe_loop, hrc]
    by_cases h0 : rc = 0
    · subst h0
      obtain ⟨state2, k, hrun, hk, hpre, hcase⟩ := ih (i + 1) (log ++ [i]) (by omega)
      refine ⟨state2, k + 1, ?_, by omega, ?_, ?_⟩
      · simp only [ne_eq, not_true_eq_false, if_false, hrun, List.range'_succ]
        simp
      · intro j h1 h2
        by_cases hji : j = i
        · rw [hji]; exact hres
        · exact hpre j (by omega) (by omega)
      · rcases hcase with ⟨h1, h2, h3⟩ | ⟨h1, ⟨rc2, h2, h2b⟩, h3⟩
        · left
          refine ⟨by omega, ?_, h3⟩
          intro j hj1 hj2
          by_cases hji : j = i
          · rw [hji]; exact hres
          · exact h2 j (by omega) hj2
        · right
          refine ⟨by omega, ⟨rc2, ?_, h2b⟩, h3⟩
          have : i + (k + 1) - 1 = i + 1 + k - 1 := by omega
          rw [this]
          exact h2
    · refine ⟨{ state with failed := true }, 1, by simp [h0, List.range'_succ], by omega,
        fun j h1 h2 => by omega, Or.inr ⟨by omega, ⟨rc, ?_, h0⟩, rfl⟩⟩
      have : i + 1 - 1 = i := by omega
      rw [this]
      exact hres

/-- C10: in the cook process `process_recipe` calls `execute_task` on the tasks
of the recipe in declaration order and stops at the first task whose result is
not 0: the tasks executed are the first `k`, each of them but the last returned
0, and either all tasks were executed and returned 0 and the cook exits with
`EXIT_SUCCESS`, or the last task executed returned a non-zero value and the cook
exits with `EXIT_FAILURE`; so the cook exits with success exactly when every
task returned 0 (also when there is no task). -/
theorem process_recipe_stops_at_first_failure (envs : Nat → TASK_ENV) (tasks : List TASK)
    (state : RECIPE_STATE) (hcook : ∀ i j, (envs i).fork j ≠ 0) :
    ∃ state2 k, process_recipe envs tasks state = some (state2, List.range k) ∧
      k ≤ tasks.length ∧
      (∀ j, j + 1 < k → task_result envs tasks j = some 0) ∧
      ((k = tasks.length ∧ (∀ j < tasks.length, task_result envs tasks j = some 0) ∧
          cook_exit_status envs tasks state = some EXIT_SUCCESS) ∨
       (0 < k ∧ (∃ rc, task_result envs tasks (k - 1) = some rc ∧ rc ≠ 0) ∧
          cook_exit_status envs tasks state = some EXIT_FAILURE)) ∧
      (cook_exit_status envs tasks state = some EXIT_SUCCESS ↔
        ∀ j < tasks.length, task_result envs tasks j = some 0) := by
  obtain ⟨state2, k, hrun, hk, hpre, hcase⟩ :=
    process_recipe_loop_spec envs tasks hcook state tasks.length 0 [] (by simp)
  rw [List.drop_zero, List.nil_append, ← List.range_eq_range'] at hrun
  have hrun2 : process_recipe envs tasks state = some (state2, List.range k) := hrun
  have hexit : cook_exit_status envs tasks state =
      if state2.failed then some EXIT_FAILURE else some EXIT_SUCCESS := by
    simp [cook_exit_status, hrun2]
  refine ⟨state2, k, hrun2, hk, fun j hj => hpre j (Nat.zero_le _) (by omega), ?_, ?_⟩
  · rcases hcase with ⟨h1, h2, h3⟩ | ⟨h1, ⟨rc, h2, h2b⟩, h3⟩
    · left
      refine ⟨h1, fun j hj => h2 j (Nat.zero_le _) hj, ?_⟩
      rw [hexit, h3]
      rfl
    · right
      refine ⟨h1, ⟨rc, ?_, h2b⟩, ?_⟩
      · simpa using h2
      · rw [hexit, h3]
        rfl
  · rcases hcase with ⟨h1, h2, h3⟩ | ⟨h1, ⟨rc, h2, h2b⟩, h3⟩
    · rw [hexit, h3]
      simp only [Bool.false_eq_true, if_false, true_iff]
      exact fun j hj => h2 j (Nat.zero_le _) hj
    · rw [hexit, h3]
      simp only [if_true, Option.some.injEq]
      constructor
      · intro h; exact absurd h (by decide)
      · intro hall
        have hlt : k - 1 < tasks.length := by omega
        have := hall (k - 1) hlt
        simp only [zero_add] at h2
        rw [h2] at this
        simp only [Option.some.injEq] at this
        exact absurd this h2b

theorem process_recipe_stops_at_first_failure_witness :
    process_recipe (fun i => if i = 1 then env_first_fails else env_all_ok)
      [task_cat_wc, task_cat_wc, task_cat_wc] zero_state
      = some ({ zero_state with failed := true }, [0, 1]) ∧
    ∃ state2 k, process_recipe (fun i => if i = 1 then env_first_fails else env_all_ok)
        [task_cat_wc, task_cat_wc, task_cat_wc] zero_state = some (state2, List.range k) ∧
      k ≤ 3 :=
  ⟨by decide,
    match process_recipe_stops_at_first_failure
        (fun i => if i = 1 then env_first_fails else env_all_ok)
        [task_cat_wc, task_cat_wc, task_cat_wc] zero_state
        (fun i j => by
          by_cases h : i = 1
          · simp only [h, if_true, env_first_fails]; omega
          · simp only [h, if_false, env_all_ok]; omega) with
    | ⟨state2, k, h1, h2, _⟩ => ⟨state2, k, h1, h2⟩⟩

/-! ## One reap step, on any engine state -/

theorem find_pid_from_none : ∀ (l : List RECIPE_STATE) (pid : Int) (i : Nat),
    find_pid_from l pid i = none ↔
      ∀ (k : Nat) (s : RECIPE_STATE), l[k]? = some s → s.pid ≠ pid := by
  intro l
  induction l with
  | nil => intro pid i; simp [find_pid_from]
  | cons a rest ih =>
    intro pid i
    simp only [find_pid_from]
    by_cases hp : a.pid = pid
    · simp only [hp, if_true]
      constructor
      · intro h; cases h
      · intro h; exact absurd hp (h 0 a (by simp))
    · simp only [hp, if_false]
      rw [ih pid (i + 1)]
      constructor
      · intro h k s hk
        cases k with
        | zero => simp at hk; rw [← hk]; exact hp
        | succ k => exact h k s (by simpa using hk)
      · intro h k s hk
        exact h (k + 1) s (by simpa using hk)

theorem find_pid_from_first : ∀ (l : List RECIPE_STATE) (pid : Int) (i m : Nat),
    find_pid_from l pid i = some m →
      ∃ k, m = i + k ∧ (∃ s, l[k]? = some s ∧ s.pid = pid) ∧
        ∀ (j : Nat) (s : RECIPE_STATE), j < k → l[j]? = some s → s.pid ≠ pid := by
  intro l
  induction l with
  | nil => intro pid i m h; simp [find_pid_from] at h
  | cons a rest ih =>
    intro pid i m h
    simp only [find_pid_from] at h
    by_cases hp : a.pid = pid
    · simp only [hp, if_true, Option.some.injEq] at h
      exact ⟨0, by omega, ⟨a, by simp, hp⟩, fun j s hj => absurd hj (Nat.not_lt_zero _)⟩
    · simp only [hp, if_false] at h
      obtain ⟨k, hm, ⟨s, hs, hsp⟩, hfirst⟩ := ih pid (i + 1) m h
      refine ⟨k + 1, by omega, ⟨s, by simpa using hs, hsp⟩, ?_⟩
      intro j s2 hj hs2
      cases j with
      | zero => simp at hs2; rw [← hs2]; exact hp
      | succ j => exact hfirst j s2 (by omega) (by simpa using hs2)

theorem find_recipe_by_pid_none {e : Engine} {pid : Int} :
    find_recipe_by_pid e pid = none ↔ no_recipe_with_pid e.states pid :=
  find_pid_from_none e.states pid 0

theorem find_recipe_by_pid_first {e : Engine} {pid : Int} {r : Nat}
    (h : find_recipe_by_pid e pid = some r) : first_with_pid e.states pid r := by
  obtain ⟨k, hm, hs, hfirst⟩ := find_pid_from_first e.states pid 0 r h
  have : r = k := by omega
  subst this
  exact ⟨hs, hfirst⟩

theorem first_with_pid_unique {st : List RECIPE_STATE} {pid : Int} {r r2 : Nat}
    (h : first_with_pid st pid r) (h2 : first_with_pid st pid r2) : r = r2 := by
  obtain ⟨⟨s, hs, hsp⟩, hfirst⟩ := h
  obtain ⟨⟨s2, hs2, hsp2⟩, hfirst2⟩ := h2
  rcases Nat.lt_trichotomy r r2 with hlt | heq | hgt
  · exact absurd hsp (hfirst2 r s hlt hs)
  · exact heq
  · exact absurd hsp2 (hfirst r2 s2 hgt hs2)

theorem classify_eq_reaped (s : RECIPE_STATE) (status : WAIT_STATUS)
    (hc : s.completed = false) (hf : s.failed = false) :
    ({ classify s status with processing := false, pid := 0 } : RECIPE_STATE)
      = reaped_state s status := by
  cases status with
  | signaled sig => simp [classify, reaped_state, hc, hf]
  | exited code =>
    by_cases h0 : code = 0
    · subst h0; simp [classify, reaped_state, hc, hf]
    · simp [classify, reaped_state, hc, hf, h0]

theorem enqueue_ready_spec (cbp : COOKBOOK) : ∀ (links : List RECIPE_LINK) (e e2 : Engine),
    enqueue_ready cbp e links = some e2 →
      e2.states = e.states ∧ e2.active_cooks = e.active_cooks ∧
      e2.main_recipe_name_global = e.main_recipe_name_global ∧
      e2.requeued = e.requeued ∧ e2.dispatched = e.dispatched ∧
      e2.work_queue = e.work_queue ++ ready_dependents cbp e.states links ∧
      e2.enqueued = e.enqueued ++ ready_dependents cbp e.states links := by
  intro links
  induction links with
  | nil =>
    intro e e2 h
    simp only [enqueue_ready, Option.some.injEq] at h
    subst h
    simp [ready_dependents]
  | cons link rest ih =>
    intro e e2 h
    simp only [enqueue_ready] at h
    cases hrec : link.recipe with
    | none => simp [hrec] at h
    | some d =>
      simp only [hrec] at h
      cases hb : is_recipe_ready cbp e.states d with
      | none => simp [hb] at h
      | some b =>
        cases b with
        | false =>
          simp only [hb] at h
          obtain ⟨h1, h2, h3, h4, h5, h6, h7⟩ := ih e e2 h
          refine ⟨h1, h2, h3, h4, h5, ?_, ?_⟩
          · rw [h6]; simp [ready_dependents, hrec, hb, List.filter_cons]
          · rw [h7]; simp [ready_dependents, hrec, hb, List.filter_cons]
        | true =>
          simp only [hb] at h
          obtain ⟨h1, h2, h3, h4, h5, h6, h7⟩ := ih (enqueue_recipe e d) e2 h
          refine ⟨h1, h2, h3, h4, h5, ?_, ?_⟩
          · rw [h6]
            simp [ready_dependents, hrec, hb, List.filter_cons, enqueue_recipe]
          · rw [h7]
            simp [ready_dependents, hrec, hb, List.filter_cons, enqueue_recipe]

/-- What a reap step that returns has done, on any engine state. -/
theorem reap_step_spec {cbp : COOKBOOK} {e e2 : Engine} {pid : Int} {status : WAIT_STATUS}
    (h : reap_step cbp e pid status = some e2) :
    0 < pid ∧
    ((find_recipe_by_pid e pid = none ∧ e2 = e) ∨
     ∃ r rp s, find_recipe_by_pid e pid = some r ∧ cbp.recipes[r]? = some rp ∧
       e.states[r]? = some s ∧
       e2.states = e.states.set r { classify s status with processing := false, pid := 0 } ∧
       e2.active_cooks = e.active_cooks - 1 ∧
       e2.main_recipe_name_global = e.main_recipe_name_global ∧
       e2.requeued = e.requeued ∧ e2.dispatched = e.dispatched ∧
       e2.work_queue = e.work_queue ++ ready_dependents cbp e2.states rp.depend_on_this ∧
       e2.enqueued = e.enqueued ++ ready_dependents cbp e2.states rp.depend_on_this) := by
  unfold reap_step at h
  by_cases hp : pid ≤ 0
  · simp [hp] at h
  · rw [if_neg hp] at h
    refine ⟨by omega, ?_⟩
    cases hf : find_recipe_by_pid e pid with
    | none =>
      simp only [hf, Option.some.injEq] at h
      exact Or.inl ⟨rfl, h.symm⟩
    | some r =>
      simp only [hf] at h
      cases hrp : cbp.recipes[r]? with
      | none => simp [hrp] at h
      | some rp =>
        cases hs : e.states[r]? with
        | none => simp [hrp, hs] at h
        | some s =>
          simp only [hrp, hs] at h
          obtain ⟨h1, h2, h3, h4, h5, h6, h7⟩ := enqueue_ready_spec cbp _ _ _ h
          simp only at h1 h2 h3 h4 h5 h6 h7
          refine Or.inr ⟨r, rp, s, rfl, hrp ▸ rfl, hs ▸ rfl, h1, h2, h3, h4, h5, ?_, ?_⟩
          · rw [h6, h1]
          · rw [h7, h1]

/-- C14: in every scheduler state that a run reaches, one reap step for a
terminated child with pid `pid` returns, and: if `r` is the (first) recipe
whose state record holds `pid`, then `r` is processing and the step sets
`r.completed` when the child exited normally with code 0 and `r.failed` for any
other exit code or a signal, clears `r.processing` and `r.pid`, changes no
other record, decrements `active_cooks` by one, and appends to the Ready Queue,
in link order, the dependents of `r` for which `is_recipe_ready` holds; if no
record holds `pid`, the engine state is left unchanged. -/
theorem reap_step_effect (cbp : COOKBOOK) (max_cooks : Int) (e : Engine) (pid : Int)
    (status : WAIT_STATUS) (hv : pointers_valid cbp = true) (hb : back_links_ok cbp = true)
    (hreach : reachable_engine cbp max_cooks e) (hpid : 0 < pid) :
    ∃ e2, reap_step cbp e pid status = some e2 ∧
      (no_recipe_with_pid e.states pid → e2 = e) ∧
      (∀ r rp s, first_with_pid e.states pid r → cbp.recipes[r]? = some rp →
        e.states[r]? = some s →
          s.processing = true ∧
          e2.states = e.states.set r (reaped_state s status) ∧
          e2.active_cooks = e.active_cooks - 1 ∧
          e2.work_queue = e.work_queue ++ ready_dependents cbp e2.states rp.depend_on_this) := by
  have hI : Inv cbp (max max_cooks 0) e :=
    Inv_reachable hv hb (le_max_right _ _) (le_max_left _ _) hreach
  obtain ⟨e2, hstep, _, _⟩ := Inv_reap hv hb hI pid status hpid
  refine ⟨e2, hstep, ?_, ?_⟩
  · intro hnone
    rcases (reap_step_spec hstep).2 with ⟨_, heq⟩ | ⟨r, rp, s, hf, _, _⟩
    · exact heq
    · obtain ⟨⟨s2, hs2, hsp⟩, _⟩ := find_recipe_by_pid_first hf
      exact absurd hsp (hnone r s2 hs2)
  · intro r rp s hfirst hrp hs
    rcases (reap_step_spec hstep).2 with ⟨hf, _⟩ | ⟨r0, rp0, s0, hf, hrp0, hs0, h1, h2, _, _, _, h6, _⟩
    · obtain ⟨⟨s2, hs2, hsp⟩, _⟩ := hfirst
      exact absurd hsp (find_recipe_by_pid_none.1 hf r s2 hs2)
    · have hr : r = r0 := first_with_pid_unique hfirst (find_recipe_by_pid_first hf)
      subst hr
      rw [hrp] at hrp0
      rw [hs] at hs0
      cases hrp0
      cases hs0
      obtain ⟨⟨s2, hs2, hsp⟩, _⟩ := hfirst
      rw [hs] at hs2
      cases hs2
      have hne : s.pid ≠ 0 := by rw [hsp]; omega
      have hproc := (hI.flags r s hs).1 hne
      obtain ⟨hc, hfl⟩ := (hI.flags r s hs).2 hproc
      rw [classify_eq_reaped s status hc hfl] at h1
      exact ⟨hproc, h1, h2, h6⟩

theorem reap_step_effect_witness :
    reachable_engine book_main_dep 1 s4_dep_running ∧
    reap_step book_main_dep s4_dep_running 100 (.exited 0) = some s4_dep_done ∧
    ∃ e2, reap_step book_main_dep s4_dep_running 100 (.exited 0) = some e2 ∧
      (no_recipe_with_pid s4_dep_running.states 100 → e2 = s4_dep_running) ∧
      (∀ r rp s, first_with_pid s4_dep_running.states 100 r →
        book_main_dep.recipes[r]? = some rp → s4_dep_running.states[r]? = some s →
          s.processing = true ∧
          e2.states = s4_dep_running.states.set r (reaped_state s (.exited 0)) ∧
          e2.active_cooks = s4_dep_running.active_cooks - 1 ∧
          e2.work_queue = s4_dep_running.work_queue ++
            ready_dependents book_main_dep e2.states rp.depend_on_this) :=
  ⟨⟨3, "main", s4_analysed, [.dispatch 100], by decide, by decide⟩, by decide,
    reap_step_effect book_main_dep 1 s4_dep_running 100 (.exited 0) (by decide) (by decide)
      ⟨3, "main", s4_analysed, [.dispatch 100], by decide, by decide⟩ (by decide)⟩

/-! ## Scheduler: failure propagation -/

theorem mark_links_traced_erase
    (call_t : List RECIPE_STATE → List Nat → Nat → Option (List RECIPE_STATE × List Nat × Int))
    (call : List RECIPE_STATE → Nat → Option (List RECIPE_STATE × Int))
    (h : ∀ st log r, (call_t st log r).map (fun x => (x.1, x.2.2)) = call st r) :
    ∀ (links : List RECIPE_LINK) (st : List RECIPE_STATE) (log : List Nat),
      (mark_links_traced call_t st log links).map (fun x => (x.1, x.2.2))
        = mark_links call st links := by
  intro links
  induction links with
  | nil => intro st log; rfl
  | cons link rest ih =>
    intro st log
    cases hrec : link.recipe with
    | none => simp [mark_links_traced, mark_links, hrec]
    | some sub =>
      have hc := h st log sub
      cases hct : call_t st log sub with
      | none =>
        rw [hct] at hc
        simp only [Option.map_none'] at hc
        simp [mark_links_traced, mark_links, hrec, hct, ← hc]
      | some x =>
        obtain ⟨st1, log1, rc⟩ := x
        rw [hct] at hc
        simp only [Option.map_some'] at hc
        simp only [mark_links_traced, mark_links, hrec, hct, ← hc]
        by_cases hrc : rc = 0
        · simp only [hrc, ne_eq, not_true_eq_false, if_false]
          exact ih st1 log1
        · simp [hrc]

/-- Forgetting the record of expansions gives `mark_required_recipes`. -/
theorem mark_required_recipes_traced_erase (cbp : COOKBOOK) :
    ∀ (fuel : Nat) (st : List RECIPE_STATE) (log : List Nat) (r : Nat),
      (mark_required_recipes_traced cbp fuel st log r).map (fun x => (x.1, x.2.2))
        = mark_required_recipes cbp fuel st r := by
  intro fuel
  induction fuel with
  | zero => intro st log r; rfl
  | succ fuel ih =>
    intro st log r
    rw [mark_required_recipes_traced, mark_required_recipes]
    cases hrp : cbp.recipes[r]? with
    | none => rfl
    | some rp =>
      cases hs : st[r]? with
      | none => rfl
      | some state =>
        simp only
        split
        · rfl
        · exact mark_links_traced_erase _ _ ih _ _ _

theorem TraceSpec_refl {st : List RECIPE_STATE} {log : List Nat}
    (hlog : ∀ v ∈ log, is_required st v = true) (hnd : log.Nodup) : TraceSpec st log st log :=
  ⟨hlog, hnd, fun _ hv => hv, fun _ hv => hv, fun _ hv => Or.inl hv⟩

theorem TraceSpec_trans {st st1 st2 : List RECIPE_STATE} {log log1 log2 : List Nat}
    (h1 : TraceSpec st log st1 log1) (h2 : TraceSpec st1 log1 st2 log2) :
    TraceSpec st log st2 log2 := by
  refine ⟨h2.marked, h2.nodup, fun v hv => h2.mono v (h1.mono v hv),
    fun v hv => h2.sub v (h1.sub v hv), fun v hv => ?_⟩
  rcases h2.complete v hv with h | h
  · rcases h1.complete v h with h3 | h3
    · exact Or.inl h3
    · exact Or.inr (h2.sub v h3)
  · exact Or.inr h

theorem mark_links_traced_spec
    (call_t : List RECIPE_STATE → List Nat → Nat → Option (List RECIPE_STATE × List Nat × Int))
    (h : ∀ st log r st2 log2 rc, call_t st log r = some (st2, log2, rc) →
      (∀ v ∈ log, is_required st v = true) → log.Nodup → TraceSpec st log st2 log2) :
    ∀ (links : List RECIPE_LINK) (st : List RECIPE_STATE) (log : List Nat)
      (st2 : List RECIPE_STATE) (log2 : List Nat) (rc : Int),
      mark_links_traced call_t st log links = some (st2, log2, rc) →
      (∀ v ∈ log, is_required st v = true) → log.Nodup → TraceSpec st log st2 log2 := by
  intro links
  induction links with
  | nil =>
    intro st log st2 log2 rc hrun hlog hnd
    simp only [mark_links_traced, Option.some.injEq, Prod.mk.injEq] at hrun
    obtain ⟨h1, h2, _⟩ := hrun
    subst h1 h2
    exact TraceSpec_refl hlog hnd
  | cons link rest ih =>
    intro st log st2 log2 rc hrun hlog hnd
    simp only [mark_links_traced] at hrun
    cases hrec : link.recipe with
    | none =>
      simp only [hrec, Option.some.injEq, Prod.mk.injEq] at hrun
      obtain ⟨h1, h2, _⟩ := hrun
      subst h1 h2
      exact TraceSpec_refl hlog hnd
    | some sub =>
      simp only [hrec] at hrun
      cases hct : call_t st log sub with
      | none => simp [hct] at hrun
      | some x =>
        obtain ⟨st1, log1, rc1⟩ := x
        simp only [hct] at hrun
        have hs1 := h st log sub st1 log1 rc1 hct hlog hnd
        by_cases hrc : rc1 = 0
        · simp only [hrc, ne_eq, not_true_eq_false, if_false] at hrun
          exact TraceSpec_trans hs1 (ih st1 log1 st2 log2 rc hrun hs1.marked hs1.nodup)
        · simp only [ne_eq, hrc, not_false_eq_true, if_true, Option.some.injEq,
            Prod.mk.injEq] at hrun
          obtain ⟨h1, h2, _⟩ := hrun
          subst h1 h2
          exact hs1

/-- Every recipe on the record is marked, every newly marked recipe is on the
record, and no recipe is on the record twice. -/
theorem mark_required_recipes_traced_spec (cbp : COOKBOOK) :
    ∀ (fuel : Nat) (st : List RECIPE_STATE) (log : List Nat) (r : Nat)
      (st2 : List RECIPE_STATE) (log2 : List Nat) (rc : Int),
      mark_required_recipes_traced cbp fuel st log r = some (st2, log2, rc) →
      (∀ v ∈ log, is_required st v = true) → log.Nodup → TraceSpec st log st2 log2 := by
  intro fuel
  induction fuel with
  | zero => intro st log r st2 log2 rc hrun; simp [mark_required_recipes_traced] at hrun
  | succ fuel ih =>
    intro st log r st2 log2 rc hrun hlog hnd
    rw [mark_required_recipes_traced] at hrun
    cases hrp : cbp.recipes[r]? with
    | none => simp [hrp] at hrun
    | some rp =>
      cases hs : st[r]? with
      | none => simp [hrp, hs] at hrun
      | some state =>
        simp only [hrp, hs] at hrun
        cases hreq : state.required with
        | true =>
          simp only [hreq, if_true, Option.some.injEq, Prod.mk.injEq] at hrun
          obtain ⟨h1, h2, _⟩ := hrun
          subst h1 h2
          exact TraceSpec_refl hlog hnd
        | false =>
          simp only [hreq, Bool.false_eq_true, if_false] at hrun
          obtain ⟨st1, hst1⟩ : ∃ st1 : List RECIPE_STATE,
              st1 = st.set r { state with required := true } := ⟨_, rfl⟩
          rw [← hst1] at hrun
          have hself : is_required st1 r = true := by rw [hst1]; exact is_required_set_self hs
          have hne : ∀ v, r ≠ v → is_required st1 v = is_required st v := by
            intro v hrv
            rw [hst1]
            exact is_required_set_ne _ hrv
          have hmono : ∀ v, is_required st v = true → is_required st1 v = true := by
            intro v hv
            by_cases hrv : r = v
            · rw [← hrv]; exact hself
            · rw [hne v hrv]; exact hv
          have hr_new : is_required st r = false := by simp [is_required, hs, hreq]
          have hlog1 : ∀ v ∈ log ++ [r], is_required st1 v = true := by
            intro v hv
            rcases List.mem_append.1 hv with h1 | h1
            · exact hmono v (hlog v h1)
            · rw [List.mem_singleton.1 h1]; exact hself
          have hnd1 : (log ++ [r]).Nodup := by
            rw [List.nodup_append]
            refine ⟨hnd, List.nodup_singleton r, ?_⟩
            intro x hx1 hx2
            rw [List.mem_singleton] at hx2
            have := hlog x hx1
            rw [hx2, hr_new] at this
            cases this
          have hs1 := mark_links_traced_spec _ ih _ _ _ _ _ _ hrun hlog1 hnd1
          refine ⟨hs1.marked, hs1.nodup, fun v hv => hs1.mono v (hmono v hv),
            fun v hv => hs1.sub v (List.mem_append_left _ hv), fun v hv => ?_⟩
          rcases hs1.complete v hv with h | h
          · by_cases hrv : r = v
            · exact Or.inr (hs1.sub v (by rw [← hrv]; simp))
            · rw [hne v hrv] at h
              exact Or.inl h
          · exact Or.inr h

/-- C15: on every cookbook, cyclic or not, with freshly zeroed state records,
`mark_required_recipes` started on a recipe of the cookbook returns (fuel above
the number of recipes is enough for the recursion), and no recipe is expanded
more than once: the recipes expanded are exactly those marked required, a
recipe already marked being left alone. -/
theorem mark_required_recipes_terminates (cbp : COOKBOOK) (fuel m : Nat)
    (hv : pointers_valid cbp = true) (hm : m < cbp.recipes.length)
    (hfuel : cbp.recipes.length < fuel) :
    ∃ st2 log rc,
      mark_required_recipes_traced cbp fuel (fresh_states cbp) [] m = some (st2, log, rc) ∧
      mark_required_recipes cbp fuel (fresh_states cbp) m = some (st2, rc) ∧
      (∀ v, log.count v ≤ 1) ∧ log.length ≤ cbp.recipes.length ∧
      ∀ v, v ∈ log ↔ is_required st2 v = true := by
  obtain ⟨st2, rc, hc, hs, _⟩ := mark_from_zero cbp hv fuel m hfuel hm
  have herase := mark_required_recipes_traced_erase cbp fuel (fresh_states cbp) [] m
  rw [hc] at herase
  cases ht : mark_required_recipes_traced cbp fuel (fresh_states cbp) [] m with
  | none => simp [ht] at herase
  | some x =>
    obtain ⟨st3, log, rc3⟩ := x
    simp only [ht, Option.map_some', Option.some.injEq, Prod.mk.injEq] at herase
    obtain ⟨h1, h2⟩ := herase
    subst h1 h2
    have hts := mark_required_recipes_traced_spec cbp fuel (fresh_states cbp) [] m
      st3 log rc3 ht (fun v hv => absurd hv (List.not_mem_nil v)) List.nodup_nil
    refine ⟨st3, log, rc3, rfl, hc, fun v => List.nodup_iff_count_le_one.1 hts.nodup v, ?_, ?_⟩
    · have hsub : log.toFinset ⊆ Finset.range cbp.recipes.length := by
        intro v hv
        rw [List.mem_toFinset] at hv
        have := is_required_lt (hts.marked v hv)
        rw [hs.ext.len, fresh_states_length] at this
        exact Finset.mem_range.2 this
      have := Finset.card_le_card hsub
      rw [List.toFinset_card_of_nodup hts.nodup, Finset.card_range] at this
      exact this
    · intro v
      refine ⟨fun hv => hts.marked v hv, fun hv => ?_⟩
      rcases hts.complete v hv with h | h
      · rw [is_required_zero] at h
        cases h
      · exact h

theorem mark_required_recipes_terminates_witness :
    mark_required_recipes_traced book_cycle 3 (fresh_states book_cycle) [] 0
      = some ([⟨true, false, false, false, 0⟩, ⟨true, false, false, false, 0⟩], [0, 1], 0) ∧
    ∃ st2 log rc,
      mark_required_recipes_traced book_cycle 3 (fresh_states book_cycle) [] 0
        = some (st2, log, rc) ∧
      mark_required_recipes book_cycle 3 (fresh_states book_cycle) 0 = some (st2, rc) ∧
      (∀ v, log.count v ≤ 1) ∧ log.length ≤ book_cycle.recipes.length ∧
      ∀ v, v ∈ log ↔ is_required st2 v = true :=
  ⟨by decide,
    mark_required_recipes_terminates book_cycle 3 0 (by decide) (by decide) (by decide)⟩

/-! ## The linked work queue is first-in-first-out -/

theorem Linked.chain_lookup {heap : List (Option WORK_QUEUE_NODE)} :
    ∀ (as l : List Nat), Linked.chain heap as l →
      ∀ a ∈ as, ∃ n, heap[a]? = some (some n) := by
  intro as
  induction as with
  | nil => intro l _ a ha; cases ha
  | cons b as ih =>
    intro l h a ha
    cases l with
    | nil => exact absurd h (by simp [Linked.chain])
    | cons x l =>
      simp only [Linked.chain] at h
      rcases List.mem_cons.1 ha with h1 | h1
      · rw [h1]; exact ⟨_, h.1⟩
      · exact ih l h.2 a h1

theorem Linked.chain_nil_right {heap : List (Option WORK_QUEUE_NODE)} {as : List Nat}
    (h : Linked.chain heap as []) : as = [] := by
  cases as with
  | nil => rfl
  | cons a as => exact absurd h (by simp [Linked.chain])

theorem Linked.chain_nil_left {heap : List (Option WORK_QUEUE_NODE)} {l : List Nat}
    (h : Linked.chain heap [] l) : l = [] := by
  cases l with
  | nil => rfl
  | cons a as => exact absurd h (by simp [Linked.chain])

theorem Linked.chain_frame {heap heap2 : List (Option WORK_QUEUE_NODE)} :
    ∀ (as l : List Nat), Linked.chain heap as l → (∀ a ∈ as, heap2[a]? = heap[a]?) →
      Linked.chain heap2 as l := by
  intro as
  induction as with
  | nil =>
    intro l h _
    rw [Linked.chain_nil_left h]
    simp [Linked.chain]
  | cons b as ih =>
    intro l h hsame
    cases l with
    | nil => exact absurd h (by simp [Linked.chain])
    | cons x l =>
      simp only [Linked.chain] at h ⊢
      exact ⟨by rw [hsame b (List.mem_cons_self _ _)]; exact h.1,
        ih l h.2 (fun a ha => hsame a (List.mem_cons_of_mem _ ha))⟩

theorem getElem?_lt_of_some {α : Type} {l : List α} {i : Nat} {x : α} (h : l[i]? = some x) :
    i < l.length := by
  rcases List.getElem?_eq_some_iff.1 h with ⟨h1, _⟩
  exact h1

/-- Appending a node behind the last node of a chain. -/
theorem Linked.chain_snoc (heap : List (Option WORK_QUEUE_NODE)) (r : Nat) :
    ∀ (as l : List Nat) (t : Nat) (tn : WORK_QUEUE_NODE), Linked.chain heap as l →
      as.Nodup → as.getLast? = some t → heap[t]? = some (some tn) →
      Linked.chain ((heap ++ [some (WORK_QUEUE_NODE.mk r none)]).set t (some { tn with next := some heap.length }))
        (as ++ [heap.length]) (l ++ [r]) := by
  intro as
  induction as with
  | nil => intro l t tn _ _ hlast; simp at hlast
  | cons a as ih =>
    intro l t tn hchain hnd hlast ht
    cases l with
    | nil => exact absurd hchain (by simp [Linked.chain])
    | cons x l =>
      simp only [Linked.chain] at hchain
      obtain ⟨ha, hrest⟩ := hchain
      have halt : a < heap.length := getElem?_lt_of_some ha
      have htlt : t < heap.length := getElem?_lt_of_some ht
      have htlt1 : t < (heap ++ [some (WORK_QUEUE_NODE.mk r none)]).length := by
        simp only [List.length_append, List.length_singleton]; omega
      cases as with
      | nil =>
        have hl : l = [] := Linked.chain_nil_left hrest
        subst hl
        simp only [List.getLast?_singleton, Option.some.injEq] at hlast
        subst hlast
        rw [ha] at ht
        simp only [Option.some.injEq] at ht
        subst ht
        simp only [List.nil_append, List.singleton_append, Linked.chain, List.head?_cons,
          List.head?_nil, and_true]
        constructor
        · rw [List.getElem?_set_self htlt1]
          rfl
        · rw [List.getElem?_set_ne (by omega)]
          simp
      | cons b as =>
        rw [List.getLast?_cons_cons] at hlast
        have hmem : t ∈ b :: as := List.mem_of_getLast?_eq_some hlast
        have hne : t ≠ a := fun heq => (List.nodup_cons.1 hnd).1 (heq ▸ hmem)
        simp only [List.cons_append, Linked.chain, List.head?_cons]
        refine ⟨?_, ?_⟩
        · rw [List.getElem?_set_ne hne, List.getElem?_append_left halt]
          simpa using ha
        · have := ih l t tn hrest (List.nodup_cons.1 hnd).2 hlast ht
          simpa only [List.cons_append] using this

/-- One call of `enqueue_recipe` on the linked list appends the recipe. -/
theorem Linked.enqueue_recipe_represents {q : WORK_QUEUE} {as l : List Nat} (r : Nat)
    (h : Linked.Represents q as l) :
    ∃ q2, Linked.enqueue_recipe q r = some q2 ∧
      Linked.Represents q2 (as ++ [q.heap.length]) (l ++ [r]) := by
  have hlive : ∀ a ∈ as, a < q.heap.length := by
    intro a ha
    obtain ⟨n, hn⟩ := Linked.chain_lookup as l h.chain a ha
    exact getElem?_lt_of_some hn
  have hnd2 : (as ++ [q.heap.length]).Nodup := by
    rw [List.nodup_append]
    refine ⟨h.nodup, List.nodup_singleton _, ?_⟩
    intro x hx1 hx2
    rw [List.mem_singleton] at hx2
    have := hlive x hx1
    omega
  by_cases hne : as = []
  · subst hne
    have hl : l = [] := Linked.chain_nil_left h.chain
    subst hl
    have htail : q.work_queue_tail = none := by rw [h.tail]; rfl
    have hres : Linked.enqueue_recipe q r = some (WORK_QUEUE.mk
        (q.heap ++ [some (WORK_QUEUE_NODE.mk r none)]) (some q.heap.length)
        (some q.heap.length)) := by
      simp only [Linked.enqueue_recipe, htail]
    refine ⟨_, hres, ⟨?_, by simp, rfl, rfl⟩⟩
    simp [Linked.chain]
  · obtain ⟨t, ht⟩ : ∃ t, as.getLast? = some t := by
      cases hl : as.getLast? with
      | none => exact absurd (List.getLast?_eq_none_iff.1 hl) hne
      | some t => exact ⟨t, rfl⟩
    have htmem : t ∈ as := List.mem_of_getLast?_eq_some ht
    obtain ⟨tn, htn⟩ := Linked.chain_lookup as l h.chain t htmem
    have htlt := hlive t htmem
    have htail : q.work_queue_tail = some t := by rw [h.tail, ht]
    have h1 : (q.heap ++ [some (WORK_QUEUE_NODE.mk r none)])[t]? = some (some tn) := by
      rw [List.getElem?_append_left htlt]; exact htn
    have hres : Linked.enqueue_recipe q r = some (WORK_QUEUE.mk
        ((q.heap ++ [some (WORK_QUEUE_NODE.mk r none)]).set t
          (some (WORK_QUEUE_NODE.mk tn.recipe (some q.heap.length))))
        q.work_queue_head (some q.heap.length)) := by
      simp only [Linked.enqueue_recipe, htail, h1]
    refine ⟨_, hres, ⟨?_, hnd2, ?_, ?_⟩⟩
    · exact Linked.chain_snoc q.heap r as l t tn h.chain h.nodup ht htn
    · simp only [h.head]
      cases as with
      | nil => exact absurd rfl hne
      | cons b bs => rfl
    · simp

/-- One call of `dequeue_recipe` on the linked list returns the first recipe,
NULL when the queue is empty, and removes it. -/
theorem Linked.dequeue_recipe_represents {q : WORK_QUEUE} {as l : List Nat}
    (h : Linked.Represents q as l) :
    ∃ q2, Linked.dequeue_recipe q = some (l.head?, q2) ∧
      Linked.Represents q2 as.tail l.tail := by
  cases as with
  | nil =>
    have hl : l = [] := Linked.chain_nil_left h.chain
    subst hl
    have hhead : q.work_queue_head = none := by rw [h.head]; rfl
    exact ⟨q, by simp only [Linked.dequeue_recipe, hhead, List.head?_nil], h⟩
  | cons a as =>
    cases l with
    | nil => exact absurd h.chain (by simp [Linked.chain])
    | cons x l =>
      have hchain := h.chain
      simp only [Linked.chain] at hchain
      obtain ⟨ha, hrest⟩ := hchain
      have hhead : q.work_queue_head = some a := by rw [h.head]; rfl
      have hres : Linked.dequeue_recipe q = some (some x, WORK_QUEUE.mk (q.heap.set a none)
          as.head? (if as.head? = none then none else q.work_queue_tail)) := by
        simp only [Linked.dequeue_recipe, hhead, ha]
      refine ⟨_, hres, ⟨?_, (List.nodup_cons.1 h.nodup).2, rfl, ?_⟩⟩
      · apply Linked.chain_frame as l hrest
        intro b hb
        have hne : a ≠ b := fun heq => (List.nodup_cons.1 h.nodup).1 (heq ▸ hb)
        simp only [List.tail_cons]
        exact List.getElem?_set_ne hne
      · simp only [List.tail_cons]
        cases as with
        | nil => simp
        | cons b bs =>
          simp only [List.head?_cons, reduceCtorEq, if_false]
          rw [h.tail, List.getLast?_cons_cons]

theorem Linked.init_work_queue_represents (q : WORK_QUEUE) :
    Linked.Represents (Linked.init_work_queue q) [] [] :=
  ⟨by simp [Linked.chain], List.nodup_nil, rfl, rfl⟩

theorem Linked.is_work_queue_empty_iff {q : WORK_QUEUE} {as l : List Nat}
    (h : Linked.Represents q as l) : Linked.is_work_queue_empty q = true ↔ l = [] := by
  simp only [Linked.is_work_queue_empty, h.head]
  cases as with
  | nil => simp [Linked.chain_nil_left h.chain]
  | cons a as =>
    cases l with
    | nil => exact absurd h.chain (by simp [Linked.chain])
    | cons x l => simp

/-- The linked list does what the list container does, call by call. -/
theorem Linked.run_ops_refines : ∀ (ops : List QUEUE_OP) (q : WORK_QUEUE) (as l : List Nat),
    Linked.Represents q as l →
      ∃ q2 as2, Linked.run_ops q ops = some (q2, (fifo_ops l ops).2) ∧
        Linked.Represents q2 as2 (fifo_ops l ops).1 := by
  intro ops
  induction ops with
  | nil =>
    intro q as l h
    have hf : fifo_ops l [] = (l, []) := by simp only [fifo_ops]
    rw [hf]
    exact ⟨q, as, rfl, h⟩
  | cons op ops ih =>
    intro q as l h
    cases op with
    | enqueue r =>
      obtain ⟨q1, hq1, hrep⟩ := Linked.enqueue_recipe_represents r h
      obtain ⟨q2, as2, hrun, hrep2⟩ := ih q1 _ _ hrep
      have hf : fifo_ops l (QUEUE_OP.enqueue r :: ops) = fifo_ops (l ++ [r]) ops := by
        simp only [fifo_ops]
      rw [hf]
      exact ⟨q2, as2, by simp only [Linked.run_ops, hq1, hrun], hrep2⟩
    | dequeue =>
      obtain ⟨q1, hq1, hrep⟩ := Linked.dequeue_recipe_represents h
      obtain ⟨q2, as2, hrun, hrep2⟩ := ih q1 _ _ hrep
      cases l with
      | nil =>
        refine ⟨q2, as2, ?_, hrep2⟩
        simp only [Linked.run_ops, hq1, hrun, fifo_ops, List.head?_nil, List.tail_nil]
      | cons x l =>
        refine ⟨q2, as2, ?_, hrep2⟩
        simp only [Linked.run_ops, hq1, hrun, fifo_ops, List.head?_cons, List.tail_cons]

/-- First in, first out: the recipes dequeued, followed by the recipes still
queued, are the recipes enqueued, in the order of the enqueues. -/
theorem fifo_ops_order : ∀ (ops : List QUEUE_OP) (l : List Nat),
    dequeued_recipes (fifo_ops l ops).2 ++ (fifo_ops l ops).1 = l ++ enqueued_recipes ops := by
  intro ops
  induction ops with
  | nil => intro l; simp [fifo_ops, dequeued_recipes, enqueued_recipes]
  | cons op ops ih =>
    intro l
    cases op with
    | enqueue r =>
      have := ih (l ++ [r])
      simp only [fifo_ops, enqueued_recipes, List.filterMap_cons] at this ⊢
      rw [this]
      simp
    | dequeue =>
      cases l with
      | nil =>
        have := ih []
        simp only [fifo_ops, enqueued_recipes, dequeued_recipes, List.filterMap_cons, id] at this ⊢
        exact this
      | cons x l =>
        have := ih l
        simp only [fifo_ops, enqueued_recipes, dequeued_recipes, List.filterMap_cons, id,
          List.cons_append] at this ⊢
        rw [this]

theorem fifo_ops_enqueues : ∀ (rs : List Nat) (l : List Nat) (ops : List QUEUE_OP),
    fifo_ops l (rs.map QUEUE_OP.enqueue ++ ops) = fifo_ops (l ++ rs) ops := by
  intro rs
  induction rs with
  | nil => intro l ops; simp
  | cons r rs ih =>
    intro l ops
    simp only [List.map_cons, List.cons_append, fifo_ops]
    rw [ih]
    simp

theorem fifo_ops_dequeues : ∀ (l : List Nat),
    fifo_ops l (List.replicate l.length QUEUE_OP.dequeue) = ([], l.map some) := by
  intro l
  induction l with
  | nil => rfl
  | cons x l ih => simp [List.replicate_succ, fifo_ops, ih]

/-- C12: on the linked list of `cook.c`, started from an initialised empty
queue: after any sequence of `enqueue_recipe` calls, as many `dequeue_recipe`
calls return the recipes in exactly the order they were enqueued and leave the
queue empty; `dequeue_recipe` on an empty queue returns NULL and leaves the
queue as it is; and after any sequence of calls of the two functions the
recipes dequeued are the first of the recipes enqueued, in order, and
`is_work_queue_empty` holds exactly when as many recipes have been dequeued
(NULL results not counted) as have been enqueued. -/
theorem linked_queue_fifo (q0 : WORK_QUEUE) (rs : List Nat) (ops : List QUEUE_OP) :
    (∃ q2, Linked.run_ops (Linked.init_work_queue q0)
        (rs.map QUEUE_OP.enqueue ++ List.replicate rs.length QUEUE_OP.dequeue)
          = some (q2, rs.map some) ∧
      Linked.is_work_queue_empty q2 = true) ∧
    (∀ q, Linked.is_work_queue_empty q = true →
      Linked.dequeue_recipe q = some (none, q)) ∧
    (∃ q2 out, Linked.run_ops (Linked.init_work_queue q0) ops = some (q2, out) ∧
      (∃ rest, dequeued_recipes out ++ rest = enqueued_recipes ops) ∧
      (Linked.is_work_queue_empty q2 = true ↔
        (dequeued_recipes out).length = (enqueued_recipes ops).length)) := by
  have hinit := Linked.init_work_queue_represents q0
  refine ⟨?_, ?_, ?_⟩
  · obtain ⟨q2, as2, hrun, hrep⟩ := Linked.run_ops_refines
      (rs.map QUEUE_OP.enqueue ++ List.replicate rs.length QUEUE_OP.dequeue) _ _ _ hinit
    have hf : fifo_ops [] (rs.map QUEUE_OP.enqueue ++ List.replicate rs.length QUEUE_OP.dequeue)
        = ([], rs.map some) := by
      rw [fifo_ops_enqueues, List.nil_append, fifo_ops_dequeues]
    rw [hf] at hrun hrep
    exact ⟨q2, hrun, (Linked.is_work_queue_empty_iff hrep).2 rfl⟩
  · intro q hq
    have hhead : q.work_queue_head = none := by
      simpa [Linked.is_work_queue_empty] using hq
    simp only [Linked.dequeue_recipe, hhead]
  · obtain ⟨q2, as2, hrun, hrep⟩ := Linked.run_ops_refines ops _ _ _ hinit
    have hord := fifo_ops_order ops []
    rw [List.nil_append] at hord
    refine ⟨q2, _, hrun, ⟨_, hord⟩, ?_⟩
    rw [Linked.is_work_queue_empty_iff hrep]
    have hlen := congrArg List.length hord
    rw [List.length_append] at hlen
    constructor
    · intro h0
      rw [h0] at hlen
      simpa using hlen
    · intro h1
      apply List.eq_nil_of_length_eq_zero
      omega

theorem linked_queue_fifo_witness :
    Linked.run_ops (Linked.init_work_queue ⟨[], none, none⟩)
      [.enqueue 4, .dequeue, .dequeue, .enqueue 7, .enqueue 5, .dequeue]
      = some (⟨[none, none, some ⟨5, none⟩], some 2, some 2⟩, [some 4, none, some 7]) ∧
    Linked.is_work_queue_empty (Linked.init_work_queue ⟨[], none, none⟩) = true ∧
    Linked.dequeue_recipe (Linked.init_work_queue ⟨[], none, none⟩)
      = some (none, Linked.init_work_queue ⟨[], none, none⟩) ∧
    ∃ q2, Linked.run_ops (Linked.init_work_queue ⟨[], none, none⟩)
        ([4, 7, 5].map QUEUE_OP.enqueue ++ List.replicate [4, 7, 5].length QUEUE_OP.dequeue)
          = some (q2, [4, 7, 5].map some) ∧
      Linked.is_work_queue_empty q2 = true :=
  ⟨by decide, by decide,
    (linked_queue_fifo ⟨[], none, none⟩ [4, 7, 5] []).2.1 _ (by decide),
    (linked_queue_fifo ⟨[], none, none⟩ [4, 7, 5] []).1⟩

/-- The list queue of the scheduler model is the contents of the linked list:
`enqueue_recipe` and `dequeue_recipe` of the engine do to `work_queue` what the
linked-list functions do to the recipes held by the nodes. -/
theorem linked_queue_refines_engine {q : WORK_QUEUE} {as : List Nat} (e : Engine) (r : Nat)
    (h : Linked.Represents q as e.work_queue) :
    (∃ q2 as2, Linked.enqueue_recipe q r = some q2 ∧
      Linked.Represents q2 as2 (enqueue_recipe e r).work_queue) ∧
    (∃ q2 as2, Linked.dequeue_recipe q = some ((dequeue_recipe e).1, q2) ∧
      Linked.Represents q2 as2 (dequeue_recipe e).2.work_queue) := by
  constructor
  · obtain ⟨q2, h1, h2⟩ := Linked.enqueue_recipe_represents r h
    exact ⟨q2, _, h1, h2⟩
  · obtain ⟨q2, h1, h2⟩ := Linked.dequeue_recipe_represents h
    refine ⟨q2, as.tail, ?_, ?_⟩
    · rw [h1]
      unfold dequeue_recipe
      cases e.work_queue <;> rfl
    · cases hq : e.work_queue with
      | nil =>
        rw [hq] at h2
        simp only [dequeue_recipe, hq]
        exact h2
      | cons x l =>
        rw [hq] at h2
        simp only [dequeue_recipe, hq]
        exact h2

/-! ## Command line -/

theorem cli_files_append (a b : List CLI_ITEM) : cli_files (a ++ b) = cli_files a ++ cli_files b := by
  simp [cli_files, List.filterMap_append]

/-- The cap is an `int`: `atoi` of `2147483648` is negative, so that cap is
refused, and `atoi` of `4294967297` is 1. -/
theorem parse_command_line_int_range :
    parse_command_line ["-c", "2147483647"] = some ⟨"cookbook.ckb", 2147483647, none⟩ ∧
    parse_command_line ["-c", "2147483648"] = none ∧
    parse_command_line ["-c", "4294967297"] = some ⟨"cookbook.ckb", 1, none⟩ ∧
    atoi "99999999999999999999" = -1 := by
  decide

end Cook
